import Mathlib

/-!
Verification of the mdht Mainline-DHT implementation against its
natural-language specification.  The JavaScript source is shallowly
embedded: buffers become `List Nat` (byte lists), JS objects with
optional fields become structures of `Option`s, and the imperative
bencode decoder becomes a fuel-indexed recursive function.
-/

namespace Mdht

/-! ## Decimal / hex digit utilities (JS number-to-string and parseInt) -/

/-- Fuel-indexed digit printer; the fuel only bounds recursion depth and
`natToDigits` supplies enough of it. -/
def natToDigitsAux : Nat → Nat → List Nat
  | 0, n => [48 + n % 10]
  | f + 1, n => if n < 10 then [48 + n] else natToDigitsAux f (n / 10) ++ [48 + n % 10]

/-- ASCII decimal digits of a natural number, as produced by JS string
conversion of a non-negative integer (`'' + n`). -/
def natToDigits (n : Nat) : List Nat := natToDigitsAux n n

/-- ECMAScript `Number::toString` output for an integer magnitude of 22
or more decimal digits (`m ≥ 10^21`): the significant digits with
trailing zeros stripped, a `.` after the first when more than one
remains, then `e+` and the exponent (the digit count minus one).  For
magnitudes whose decimal digits are exactly the double's shortest
digits — such as `10^21` itself, an exactly representable double — this
is byte for byte what JS prints (`'1e+21'`). -/
def expFormDigits (m : Nat) : List Nat :=
  let ds := natToDigits m
  let sig := (ds.reverse.dropWhile (fun c => c == 48)).reverse
  match sig with
  | [] => [48]
  | d :: tl =>
    d :: ((if tl.isEmpty then [] else 46 :: tl) ++ [101, 43] ++ natToDigits (ds.length - 1))

/-- `'' + m` for a non-negative JS number: plain decimal below `10^21`,
exponent form at and above it. -/
def jsNatDigits (m : Nat) : List Nat :=
  if m < 10 ^ 21 then natToDigits m else expFormDigits m

/-- ASCII bytes of a JS integer, as produced by `'' + n` in
`encode-torrent.js`: optional `-` sign followed by the number-to-string
of the magnitude (plain decimal below `10^21`, exponent form above). -/
def intToDigits (n : Int) : List Nat :=
  if n < 0 then 45 :: jsNatDigits (-n).toNat else jsNatDigits n.toNat

def isWsByte (c : Nat) : Bool := c = 9 ∨ c = 10 ∨ c = 11 ∨ c = 12 ∨ c = 13 ∨ c = 32

def isDecDigit (c : Nat) : Bool := 48 ≤ c ∧ c ≤ 57

def isHexDigit (c : Nat) : Bool :=
  isDecDigit c ∨ (97 ≤ c ∧ c ≤ 102) ∨ (65 ≤ c ∧ c ≤ 70)

def hexVal (c : Nat) : Nat :=
  if c ≤ 57 then c - 48 else if c ≤ 70 then c - 55 else c - 87

/-- Accumulate digit bytes into a number in the given base. -/
def digitsToNat (base : Nat) (ds : List Nat) : Nat :=
  ds.foldl (fun a c => a * base + hexVal c) 0

/-- Optional leading sign of a numeric literal: `true` marks a minus. -/
def stripSign : List Nat → Bool × List Nat
  | 43 :: r => (false, r)
  | 45 :: r => (true, r)
  | t => (false, t)

/-- `parseInt` radix auto-detection: a `0x`/`0X` prefix selects base 16. -/
def stripHexPrefix : List Nat → Nat × List Nat
  | 48 :: 120 :: r => (16, r)
  | 48 :: 88 :: r => (16, r)
  | u => (10, u)

/-- JS `parseInt(buff.toString('ascii', start, end))` over the byte slice:
Node's `'ascii'` decoding masks each byte to 7 bits, then `parseInt` skips
leading whitespace, accepts an optional sign and a `0x`/`0X` hex prefix,
parses the maximal leading digit run and ignores the rest; an empty digit
run is `NaN` (modelled as `none`). -/
def jsParseInt (s : List Nat) : Option Int :=
  let t := (s.map (fun b => b % 128)).dropWhile isWsByte
  let signed := stripSign t
  let based := stripHexPrefix signed.2
  let ds := based.2.takeWhile (fun c => if based.1 = 16 then isHexDigit c else isDecDigit c)
  if ds.isEmpty then none
  else
    let n : Int := Int.ofNat (digitsToNat based.1 ds)
    some (if signed.1 then -n else n)

/-- Split a byte list at the first occurrence of byte `c`: the prefix
before it and the suffix after it.  Models the decoder's `find`, which
advances the read index past the found byte and throws when absent. -/
def splitAtByte (c : Nat) : List Nat → Option (List Nat × List Nat)
  | [] => none
  | b :: bs =>
    if b = c then some ([], bs)
    else (splitAtByte c bs).map (fun p => (b :: p.1, p.2))

/-- Lower-case hex digit of a value below 16, as in Node `toString('hex')`. -/
def hexDigitChar (n : Nat) : Nat := if n < 10 then 48 + n else 87 + n

/-- `ut.buffToHex`: hex string (as ASCII bytes) of a byte list. -/
def buffToHex (b : List Nat) : List Nat :=
  b.flatMap (fun x => [hexDigitChar (x / 16), hexDigitChar (x % 16)])

/-! ## Bencode values

The supported bencode universe (§4.1 of the spec): integers, byte
strings, lists, and dictionaries with byte-string keys.  JS object keys
appear in insertion order, so a decoded dictionary is an ordered
association list. -/

inductive Bencode where
  | int : Int → Bencode
  | str : List Nat → Bencode
  | list : List Bencode → Bencode
  | dict : List (List Nat × Bencode) → Bencode

/-- Lexicographic comparison of two lists of naturals.  JS string
comparison `a < b` is this comparison applied to the strings' UTF-16
code-unit sequences. -/
def lexLtB : List Nat → List Nat → Bool
  | [], [] => false
  | [], _ :: _ => true
  | _ :: _, [] => false
  | a :: as, b :: bs => if a < b then true else if b < a then false else lexLtB as bs

/-- Unicode code points of a UTF-8 byte list (inverting `Buffer.from(key)`):
a 2-, 3- or 4-byte sequence is reassembled from the payload bits of its
lead and continuation bytes; the fuel only bounds recursion depth and at
least one byte is consumed per step, so `utf8Cps k.length k` decodes all
of `k`.  A truncated or stray byte is kept as itself; such byte lists
are not the `Buffer.from` image of any JS string and never arise as keys. -/
def utf8Cps : Nat → List Nat → List Nat
  | 0, _ => []
  | _ + 1, [] => []
  | f + 1, b :: bs =>
    if b < 192 then b :: utf8Cps f bs
    else if b < 224 then
      match bs with
      | c1 :: bs1 => ((b % 32) * 64 + c1 % 64) :: utf8Cps f bs1
      | [] => [b]
    else if b < 240 then
      match bs with
      | c1 :: c2 :: bs2 => ((b % 16) * 4096 + (c1 % 64) * 64 + c2 % 64) :: utf8Cps f bs2
      | _ => [b]
    else
      match bs with
      | c1 :: c2 :: c3 :: bs3 =>
        ((b % 8) * 262144 + (c1 % 64) * 4096 + (c2 % 64) * 64 + c3 % 64) :: utf8Cps f bs3
      | _ => [b]

/-- UTF-16 code units of a code point: itself below `0x10000`, a
surrogate pair above. -/
def cpUnits (cp : Nat) : List Nat :=
  if cp < 65536 then [cp]
  else [55296 + (cp - 65536) / 1024, 56320 + (cp - 65536) % 1024]

/-- UTF-16 code-unit sequence of the JS string whose `Buffer.from` image
a key's byte list is: object keys are strings, the encoder emits their
UTF-8 bytes, and the default sort compares the strings unit by unit. -/
def keyUnits (k : List Nat) : List Nat :=
  (utf8Cps k.length k).flatMap cpUnits

/-- The JS default `Array.prototype.sort` comparator on two object keys:
string comparison, performed on UTF-16 code-unit sequences.  On
supplementary-plane keys this can disagree with raw-byte order of the
emitted UTF-8. -/
def jsKeyLt (a b : List Nat) : Bool := lexLtB (keyUnits a) (keyUnits b)

/-- Insert a pair into a key-sorted pair list (stable). -/
def insertPair {β : Type} (p : List Nat × β) :
    List (List Nat × β) → List (List Nat × β)
  | [] => [p]
  | q :: qs => if jsKeyLt p.1 q.1 then p :: q :: qs else q :: insertPair p qs

/-- `Object.keys(d).sort()` applied to an association list: the pairs
reordered so keys are ascending in JS string order — UTF-16 code-unit
lexicographic — (a stable sort; for the duplicate-free key sets of JS
objects the result is unique). -/
def sortPairs {β : Type} : List (List Nat × β) → List (List Nat × β)
  | [] => []
  | p :: ps => insertPair p (sortPairs ps)

/-- Byte-string encoding: decimal length, `:`, raw bytes
(`buffer` in `encode-torrent.js`). -/
def encStr (s : List Nat) : List Nat := natToDigits s.length ++ 58 :: s

/-- Concatenation of the already-encoded dictionary entries: for each
pair, the encoded key string followed by the encoded value. -/
def encPairsOut : List (List Nat × List Nat) → List Nat
  | [] => []
  | (k, ev) :: kvs => encStr k ++ ev ++ encPairsOut kvs

mutual

/-- The bencode encoder of `encode-torrent.js`: integers as `i<dec>e`,
byte strings length-prefixed, lists as `l…e`, dictionaries as `d…e` with
keys sorted by the JS default sort.  The source sorts the keys and then
encodes each value in sorted order; here each value is encoded first and
the encoded pairs are sorted, which emits the same bytes because the
sort comparator reads only the keys. -/
def encode : Bencode → List Nat
  | .int n => 105 :: (intToDigits n ++ [101])
  | .str s => encStr s
  | .list xs => 108 :: (encSeq xs ++ [101])
  | .dict kvs => 100 :: (encPairsOut (sortPairs (encKVs kvs)) ++ [101])

/-- Concatenated encodings of the elements of a list. -/
def encSeq : List Bencode → List Nat
  | [] => []
  | x :: xs => encode x ++ encSeq xs

/-- Encode the value of every dictionary entry, keeping the keys. -/
def encKVs : List (List Nat × Bencode) → List (List Nat × List Nat)
  | [] => []
  | (k, v) :: kvs => (k, encode v) :: encKVs kvs

end

/-! ## Bencode decoder

Shallow embedding of `decode` (the bencode decoder module).  The JS
version walks a read index over the buffer and throws on malformed
input; here each routine consumes a byte-list prefix and returns the
remaining suffix, with `none` for the thrown/`null` outcome, and the
value-level recursion is bounded by a fuel argument (the JS recursion
has no bound; any fuel at least `decodeFuel` reproduces it on inputs it
terminates on). -/

/-- `string()`: decimal length up to the first `:` (via `find`/`parseInt`),
then that many raw bytes (clamped at the end of the buffer, as the JS
`slice` clamps).  A negative parsed length would move the JS read index
backwards; that pathological case is modelled as failure. -/
def decStr (b : List Nat) : Option (List Nat × List Nat) :=
  match splitAtByte 58 b with
  | none => none
  | some (pre, post) =>
    match jsParseInt pre with
    | none => none
    | some len =>
      if len < 0 then none
      else some (post.take len.toNat, post.drop len.toNat)

/-- `integer()`: ASCII decimal between `i` (already consumed) and the
first `e`. -/
def decInt (b : List Nat) : Option (Bencode × List Nat) :=
  match splitAtByte 101 b with
  | none => none
  | some (pre, post) =>
    match jsParseInt pre with
    | none => none
    | some n => some (.int n, post)

/-- JS object assignment `dict[key] = val` on an insertion-ordered
association list: an existing key keeps its position and gets the new
value, a new key is appended. -/
def jsObjectSet {β : Type} (acc : List (List Nat × β)) (k : List Nat) (v : β) :
    List (List Nat × β) :=
  if (acc.map Prod.fst).contains k then
    acc.map (fun p => if p.1 = k then (k, v) else p)
  else acc ++ [(k, v)]

mutual

/-- `next()`: dispatch on the first byte (`d` dictionary, `l` list,
`i` integer, anything else — including end of input — a string). -/
def decNext : Nat → List Nat → Option (Bencode × List Nat)
  | 0, _ => none
  | f + 1, b =>
    match b with
    | 100 :: r => decPairsLoop f r []
    | 108 :: r => decListLoop f r []
    | 105 :: r => decInt r
    | _ => (decStr b).map (fun p => (.str p.1, p.2))

/-- The element loop of `list()`: elements until an `e`; running out of
input throws. -/
def decListLoop : Nat → List Nat → List Bencode → Option (Bencode × List Nat)
  | _, 101 :: r, acc => some (.list acc, r)
  | _, [], _ => none
  | 0, _, _ => none
  | f + 1, b, acc =>
    match decNext f b with
    | some (x, r) => decListLoop f r (acc ++ [x])
    | none => none

/-- The entry loop of `dictionary()`: key string then value until an
`e`; running out of input throws. -/
def decPairsLoop : Nat → List Nat → List (List Nat × Bencode) →
    Option (Bencode × List Nat)
  | _, 101 :: r, acc => some (.dict acc, r)
  | _, [], _ => none
  | 0, _, _ => none
  | f + 1, b, acc =>
    match decStr b with
    | some (k, r) =>
      match decNext f r with
      | some (v, r2) => decPairsLoop f r2 (jsObjectSet acc k v)
      | none => none
    | none => none

end

/-- Fuel that suffices for any value the decoder can finish on: every
recursive step consumes at least one input byte or immediately returns. -/
def decodeFuel (b : List Nat) : Nat := 2 * b.length + 2

mutual

/-- Fuel the decoder needs to reconstruct a value (one unit per `next()`
entry plus one per container-loop iteration). -/
def bNeed : Bencode → Nat
  | .int _ => 1
  | .str _ => 1
  | .list xs => 1 + seqNeed xs
  | .dict kvs => 1 + pairsNeed kvs

/-- Fuel `decListLoop` needs for the remaining elements. -/
def seqNeed : List Bencode → Nat
  | [] => 0
  | x :: xs => 1 + max (bNeed x) (seqNeed xs)

/-- Fuel `decPairsLoop` needs for the remaining entries. -/
def pairsNeed : List (List Nat × Bencode) → Nat
  | [] => 0
  | (_, v) :: kvs => 1 + max (bNeed v) (pairsNeed kvs)

end

/-- `decode(buff)`: parse one value from the front of the buffer
(trailing bytes are ignored), `null` on any parse failure. -/
def decode (b : List Nat) : Option Bencode :=
  (decNext (decodeFuel b) b).map Prod.fst

/-- The supported bencode universe of the round-trip property: integers
in the range where `'' + n` prints plain decimal (magnitude below
`10^21`; at `10^21` JS switches to exponent form and the round trip
fails — see the C2 counterexample), genuine byte strings (each byte
below 256), and dictionaries whose keys are strictly ascending in the
encoder's sort order — the canonical form every JS object reachable from
`decode` has, since JS object keys are unique and the encoder sorts
them. -/
inductive WFBencode : Bencode → Prop where
  | int : ∀ n : Int, n.natAbs < 10 ^ 21 → WFBencode (.int n)
  | str : ∀ s, (∀ b ∈ s, b < 256) → WFBencode (.str s)
  | list : ∀ xs, (∀ x ∈ xs, WFBencode x) → WFBencode (.list xs)
  | dict : ∀ kvs, (∀ p ∈ kvs, ∀ b ∈ p.1, b < 256) → (∀ p ∈ kvs, WFBencode p.2) →
      List.Pairwise (fun p q => jsKeyLt p.1 q.1 = true) kvs → WFBencode (.dict kvs)

/-! ## Constants of `mdht.js` (`ut`, `oq`, `iq`, `ds`) -/

def utKeyLen : Nat := 32
def utSigLen : Nat := 64
def utSaltLen : Nat := 64
def utMaxV : Nat := 1000
def iqMatch : Nat := 2
def oqMatch : Nat := 4
def oqPendingMax : Nat := 20
def oqPendingTick : Nat := 5

/-- `ut.byteMatch`: do the first `m` bytes of the two buffers agree
(`slice` clamps at the end, as `take` does)? -/
def byteMatch (a b : List Nat) (m : Nat) : Bool := a.take m == b.take m

/-! ## `ut.packSeqSalt` — canonical signed message for BEP44 -/

/-- The `es` helper of `ut.packSeqSalt`: `ben.encode(obj).slice(1, -1)`,
the bencoding of a singleton dictionary with its first and last byte
(the `d` and the `e`) stripped. -/
def esFrag (x : Bencode) : List Nat := ((encode x).drop 1).dropLast

/-- ASCII bytes of the key `"salt"`. -/
def saltKey : List Nat := [115, 97, 108, 116]

/-- ASCII bytes of the key `"seq"`. -/
def seqKey : List Nat := [115, 101, 113]

/-- ASCII bytes of the key `"v"`. -/
def vKey : List Nat := [118]

/-- `ut.packSeqSalt(seq, v, salt)`: concatenation of the stripped
singleton-dictionary encodings for `{salt}`, `{seq}`, `{v}`, skipping the
salt fragment when `salt` is absent or empty (`salt && salt.length`). -/
def packSeqSalt (seq : Int) (v : Bencode) (salt : Option (List Nat)) : List Nat :=
  (match salt with
   | some s => if s.length = 0 then [] else esFrag (.dict [(saltKey, .str s)])
   | none => []) ++
  esFrag (.dict [(seqKey, .int seq)]) ++ esFrag (.dict [(vKey, v)])

/-! ## Contacts, token secrets (`iq`) -/

/-- A routing-table contact: `{ id: 20-byte buffer, loc: 6-byte buffer }`
plus the `time` stamp `Table.addContact` maintains. -/
structure Contact where
  id : List Nat
  loc : List Nat
  time : Nat := 0
deriving Repr, DecidableEq

/-- `contactsToNodes` inside `iq.query`: concatenation of `id ∥ loc` for
each contact. -/
def contactsToNodes (contacts : List Contact) : List Nat :=
  contacts.flatMap (fun c => c.id ++ c.loc)

/-- The two token secrets of `iq`: current and previous. -/
structure Secrets where
  secret : List Nat
  oldSecret : List Nat
deriving Repr, DecidableEq

/-- `iq.newSecret`: the current secret becomes the old one and a fresh
random value becomes current. -/
def newSecret (st : Secrets) (fresh : List Nat) : Secrets := ⟨fresh, st.secret⟩

/-- A token minted from a 26-byte node and a secret:
`ut.sha1(Buffer.concat([node, secret]))`.  The hash is abstracted as a
parameter `H`. -/
def mintToken (H : List Nat → List Nat) (node secret : List Nat) : List Nat :=
  H (node ++ secret)

/-- The token `iq.query` computes for the sender from the current secret. -/
def queryToken (H : List Nat → List Nat) (st : Secrets) (c : Contact) : List Nat :=
  mintToken H (contactsToNodes [c]) st.secret

/-- The token `iq.query` computes for the sender from the previous secret. -/
def queryOldToken (H : List Nat → List Nat) (st : Secrets) (c : Contact) : List Nat :=
  mintToken H (contactsToNodes [c]) st.oldSecret

/-- `validToken` in `iq.query`:
`a.token && (a.token.equals(token) || a.token.equals(oldToken))`. -/
def validToken (H : List Nat → List Nat) (st : Secrets) (c : Contact)
    (tok : Option (List Nat)) : Bool :=
  match tok with
  | none => false
  | some t => decide (t = queryToken H st c ∨ t = queryOldToken H st c)

/-! ## BEP44 data store (`ds`) and the `put` handler -/

/-- A stored BEP44 datum: `{ v, k?, seq?, sig? }` plus the `time` stamp
`ds.putData` adds. -/
structure Datum where
  v : Bencode
  k : Option (List Nat) := none
  seq : Option Int := none
  sig : Option (List Nat) := none
  time : Nat := 0

/-- `ds.data`: a JS object keyed by the hex string of the target. -/
def Store : Type := List (List Nat × Datum)

/-- Generalised JS object assignment (see `jsObjectSet`), reused for the
hex-keyed data store and the numeric-keyed pending-query table. -/
def jsAssocSet {κ β : Type} [BEq κ] (acc : List (κ × β)) (k : κ) (v : β) :
    List (κ × β) :=
  if (acc.map Prod.fst).contains k then
    acc.map (fun p => if p.1 == k then (k, v) else p)
  else acc ++ [(k, v)]

/-- `ds.putData(target, data)`: stamp the datum with the current time and
store it under the hex of the target. -/
def putData (store : Store) (target : List Nat) (d : Datum) (now : Nat) : Store :=
  jsAssocSet store (buffToHex target) { d with time := now }

/-- What `ds.getData` hands back: a spread copy of the stored record with
`time` deleted.  For an absent target the spread of `undefined` is the
empty object, so every field is `undefined` — but the object itself is
truthy. -/
structure DatumView where
  v : Option Bencode
  k : Option (List Nat)
  seq : Option Int
  sig : Option (List Nat)

/-- Plain lookup in the hex-keyed store. -/
def lookupStore (store : Store) (key : List Nat) : Option Datum :=
  (store.find? (fun p => p.1 == key)).map Prod.snd

/-- `ds.getData(target)`: `{ ...ds.data[hex] }` with `time` removed; the
result is an object (truthy) even when nothing is stored. -/
def getData (store : Store) (target : List Nat) : DatumView :=
  match lookupStore store (buffToHex target) with
  | some d => ⟨some d.v, d.k, d.seq, d.sig⟩
  | none => ⟨none, none, none, none⟩

/-- Outcome of the `put` handler: a coded error response, a normal `r`
response, or silence (the anti-spam prefix guard drops the query). -/
inductive PutReply where
  | err : Nat → String → PutReply
  | ok : PutReply
  | silent : PutReply
deriving Repr, DecidableEq

/-- The argument dictionary `a` of an incoming `put` query; absent wire
fields are `none`. -/
structure PutArgs where
  token : Option (List Nat) := none
  v : Option Bencode := none
  k : Option (List Nat) := none
  seq : Option Int := none
  sig : Option (List Nat) := none
  salt : Option (List Nat) := none
  cas : Option Int := none

/-- JS truthiness of a decoded bencode value: the number 0 is falsy,
buffers, arrays and objects are truthy. -/
def bencTruthy : Bencode → Bool
  | .int n => decide (n ≠ 0)
  | _ => true

/-- Lines 438–439 of `iq.query`: unless the target's first 2 bytes match
the local id the store is silently skipped; otherwise the datum is stored
and a normal response sent. -/
def putStoreTail (myId : List Nat) (store : Store) (target : List Nat)
    (datum : Datum) (now : Nat) : PutReply × Store :=
  if byteMatch target myId iqMatch = false then (.silent, store)
  else (.ok, putData store target datum now)

/-- Lines 427–433 of `iq.query` (the mutable `put` path after signature
validation), with `target` already derived: CAS check, stored-seq checks,
then store.  `ds.getData` always returns a truthy object, so the
`if (oldDatum)` block always runs; its `seq` field is `undefined` when
nothing is stored. -/
def putMutableTail (myId : List Nat) (store : Store) (v : Bencode)
    (k : List Nat) (s : Int) (g : List Nat) (cas : Option Int)
    (target : List Nat) (now : Nat) : PutReply × Store :=
  let oldDatum := getData store target
  if (match cas with
      | some c => decide (oldDatum.seq ≠ some c)
      | none => false) then (.err 301 "CAS mismatch", store)
  else if (match oldDatum.seq with
      | some t => decide (s < t)
      | none => false) then (.err 302 "Sequence number too small", store)
  else if (match oldDatum.seq, oldDatum.v with
      | some t, some ov => decide (t = s) && decide (encode ov ≠ encode v)
      | _, _ => false) then (.err 302 "Sequence number too small", store)
  else putStoreTail myId store target { v := v, k := some k, seq := some s, sig := some g } now

/-- The mutable target of lines 421–426: `SHA-1(k ∥ salt)` when a salt
is present (even an empty one), `SHA-1(k)` otherwise. -/
def mutableTargetOf (H : List Nat → List Nat) (k : List Nat)
    (salt : Option (List Nat)) : List Nat :=
  match salt with
  | some sl => H (k ++ sl)
  | none => H k

/-- The immutable `put` path (lines 434–439): target is the SHA-1 of the
encoded value, the stored datum is `{ v }`. -/
def putImmutable (H : List Nat → List Nat) (myId : List Nat) (store : Store)
    (v : Bencode) (now : Nat) : PutReply × Store :=
  putStoreTail myId store (H (encode v)) { v := v } now

/-- The `put` branch of `iq.query` (lines 413–439).  `verify` abstracts
`eds.verify`, `H` abstracts SHA-1; the token pair comes from the secret
state and sender exactly as in lines 388–391.  The mutable path is taken
when `a.k && a.seq && a.sig` is truthy (so `seq = 0` falls through to the
immutable path, 0 being falsy in JS). -/
def putQuery (verify : List Nat → List Nat → List Nat → Bool)
    (H : List Nat → List Nat) (myId : List Nat) (st : Secrets)
    (sender : Contact) (now : Nat) (store : Store) (a : PutArgs) :
    PutReply × Store :=
  if validToken H st sender a.token = false then (.err 203 "Invalid token", store)
  else match a.v with
  | none => (.err 203 "Missing v", store)
  | some v =>
    if bencTruthy v = false then (.err 203 "Missing v", store)
    else if (encode v).length > utMaxV then (.err 205 "Message (v) too big", store)
    else
      match a.k, a.seq, a.sig with
      | some k, some s, some g =>
        if s = 0 then putImmutable H myId store v now
        else if k.length ≠ utKeyLen ∨ g.length ≠ utSigLen then
          (.err 203 "Protocol error", store)
        else if verify g (packSeqSalt s v a.salt) k = false then
          (.err 206 "Invalid signature", store)
        else
          match a.salt with
          | some salt =>
            if salt.length > utSaltLen then (.err 207 "Salt too big", store)
            else putMutableTail myId store v k s g a.cas (H (k ++ salt)) now
          | none => putMutableTail myId store v k s g a.cas (H k) now
      | _, _, _ => putImmutable H myId store v now

/-! ## Routing table (`table.js`)

The tree is a list of nodes, each node a pair of contacts arrays
(element 0 and element 1).  Ids are byte lists; bit `b` of an id is bit
`7 - b % 8` of byte `b / 8`, bit 0 being the most significant. -/

/-- `getBit` inside `findContact`. -/
def getBit (id : List Nat) (b : Nat) : Bool :=
  decide ((id.getD (b / 8) 0) &&& (1 <<< (7 - b % 8)) ≠ 0)

/-- The scan for the most-significant non-matching bit; the fuel is the
number of bit positions left to inspect. -/
def firstDiffAux (id tid : List Nat) : Nat → Nat → Nat
  | 0, x => x
  | f + 1, x => if getBit id x ≠ getBit tid x then x else firstDiffAux id tid f (x + 1)

/-- Index of the most-significant bit where `id` differs from the table
id, or `id.length * 8` when none differs in that range. -/
def firstDiffBit (id tid : List Nat) : Nat :=
  firstDiffAux id tid (id.length * 8) 0

structure Table where
  id : List Nat
  isTemp : Bool
  tree : List (List Contact × List Contact)
  numContacts : Nat
  maxContacts : Nat
deriving Repr, DecidableEq

/-- `new Table(id, isTemp, maxContacts)`: one root node, two empty
contacts arrays; `maxContacts || 8` (`0`/absent fall back to the
default). -/
def mkTable (id : List Nat) (isTemp : Bool) (maxContacts : Nat) : Table :=
  ⟨id, isTemp, [([], [])], 0, if maxContacts = 0 then 8 else maxContacts⟩

/-- `this.tree[y][z]` (out-of-range reads give an empty bucket; the
source never reads out of range). -/
def bucket (t : Table) (y z : Nat) : List Contact :=
  let node := t.tree.getD y ([], [])
  if z = 0 then node.1 else node.2

/-- Replace `this.tree[y][z]` (no-op out of range, like the source,
which never writes out of range). -/
def setBucket (t : Table) (y z : Nat) (l : List Contact) : Table :=
  let node := t.tree.getD y ([], [])
  { t with tree := t.tree.set y (if z = 0 then (l, node.2) else (node.1, l)) }

/-- `Table.prototype.findContact(id)`: the coordinates `(y, z, i)` of the
bucket that would hold `id` and the in-bucket index (`i` is the bucket
length when absent, as `findIdx` returns). -/
def findContact (t : Table) (id : List Nat) : Nat × Nat × Nat :=
  let x := firstDiffBit id t.id
  let tip := t.tree.length - 1
  let y := if x ≤ tip then x else tip
  let z := if x ≤ tip then 0 else 1
  (y, z, (bucket t y z).findIdx (fun c => c.id == id))

/-- One step of the split's redistribution loop: push a contact into the
bucket `findContact` designates (ignoring the in-bucket index). -/
def pushToBucket (t : Table) (c : Contact) : Table :=
  let fc := findContact t c.id
  setBucket t fc.1 fc.2.1 (bucket t fc.1 fc.2.1 ++ [c])

/-- The split's `contacts.forEach` redistribution. -/
def redistribute (t : Table) : List Contact → Table
  | [] => t
  | c :: cs => redistribute (pushToBucket t c) cs

/-- `Table.prototype.addContact(contact)` with the current time passed
explicitly (the source reads `Date.now()`). -/
def addContact (t : Table) (c0 : Contact) (now : Nat) : Table :=
  if t.isTemp = false ∧ c0.id = t.id then t
  else
    let c := if t.isTemp then c0 else { c0 with time := now }
    let fc := findContact t c.id
    let y := fc.1
    let z := fc.2.1
    let i := fc.2.2
    let contacts := bucket t y z
    if i < contacts.length then setBucket t y z (contacts.set i c)
    else if contacts.length < t.maxContacts then
      { setBucket t y z (contacts ++ [c]) with numContacts := t.numContacts + 1 }
    else if z = 0 then t
    else
      let full := contacts ++ [c]
      let t1 := { setBucket t y z full with numContacts := t.numContacts + 1 }
      let t2 := { t1 with tree := t1.tree ++ [([], [])] }
      let t3 := redistribute t2 full
      setBucket t3 y z []

/-- `Table.prototype.allContacts()`: every element-0 array concatenated,
then the tip node's element-1 array. -/
def allContacts (t : Table) : List Contact :=
  (t.tree.map Prod.fst).flatten ++ (t.tree.getLast?.getD ([], [])).2

/-- The sort comparator of `closestContacts`: big-endian bytewise XOR
distance to the table id, iterating over the first contact's id bytes
(ids are always 20 bytes; the ragged cases are unreachable and the JS
`NaN` arithmetic they would produce is modelled as 0). -/
def xorCmpBytes : List Nat → List Nat → List Nat → Int
  | [], _, _ => 0
  | _ :: _, [], _ => 0
  | _ :: _, _ :: _, [] => 0
  | a :: as, t :: ts, b :: bs =>
    if a ^^^ t = b ^^^ t then xorCmpBytes as ts bs
    else (Int.ofNat (a ^^^ t)) - Int.ofNat (b ^^^ t)

/-- Stable insertion step for the comparator sort. -/
def xorInsert (tid : List Nat) (c : Contact) : List Contact → List Contact
  | [] => [c]
  | d :: ds =>
    if xorCmpBytes c.id tid d.id ≤ 0 then c :: d :: ds else d :: xorInsert tid c ds

/-- JS `Array.prototype.sort` with the XOR comparator, modelled as a
stable insertion sort (ECMAScript requires the sort to be stable and
comparator-consistent, which determines the result). -/
def xorSort (tid : List Nat) : List Contact → List Contact
  | [] => []
  | c :: cs => xorInsert tid c (xorSort tid cs)

/-- `Table.prototype.closestContacts()`: both tip-node buckets merged and
sorted by XOR distance to the table id. -/
def closestContacts (t : Table) : List Contact :=
  let tipNode := t.tree.getLast?.getD ([], [])
  xorSort t.id (tipNode.1 ++ tipNode.2)

/-- `ut.addContact(table, id, loc)`: drop the contact when its first
`oq.match = 4` bytes agree with the table id, otherwise insert it. -/
def utAddContact (t : Table) (id loc : List Nat) (now : Nat) : Table :=
  if byteMatch id t.id oqMatch then t else addContact t ⟨id, loc, 0⟩ now

/-- Big-endian value of a byte list. -/
def bytesToNat (l : List Nat) : Nat := l.foldl (fun a b => a * 256 + b) 0

/-- XOR distance of an id to the table id, as a big-endian 160-bit
integer (§3 of the spec). -/
def xorDist (tid aid : List Nat) : Nat :=
  bytesToNat (List.zipWith (fun a b => a ^^^ b) aid tid)

/-- The structural invariant `addContact` maintains (§3/§8 of the spec,
with the corrected bucket-size bound): a non-empty tree; every element-1
array empty except the tip's; element-0 contacts at position `j` have
their first differing bit exactly at `j`; element-1 contacts at position
`j` agree with the table id on bits `0..j`; and every bucket holds at
most `maxContacts - 1 + (number of tree nodes)` contacts. -/
def TableInv (t : Table) : Prop :=
  t.tree ≠ [] ∧
  (∀ j, j + 1 < t.tree.length → (t.tree.getD j ([], [])).2 = []) ∧
  (∀ j, ∀ c ∈ (t.tree.getD j ([], [])).1, firstDiffBit c.id t.id = j) ∧
  (∀ j, ∀ c ∈ (t.tree.getD j ([], [])).2, j < firstDiffBit c.id t.id) ∧
  (∀ j, (t.tree.getD j ([], [])).1.length ≤ t.maxContacts - 1 + t.tree.length ∧
        (t.tree.getD j ([], [])).2.length ≤ t.maxContacts - 1 + t.tree.length)

/-- Every contact stored anywhere in the table satisfies `Q` on its id. -/
def TableAllIds (Q : List Nat → Prop) (t : Table) : Prop :=
  ∀ j, (∀ c ∈ (t.tree.getD j ([], [])).1, Q c.id) ∧
       (∀ c ∈ (t.tree.getD j ([], [])).2, Q c.id)

/-! ## Outgoing-query bookkeeping (`oq`)

Only the state the cap/FIFO claims speak about is modelled: the pending
table is keyed by the transaction counter and holds the remaining tick
budget; the waiting queue holds opaque payloads (`{q, a, loc, done}`). -/

structure OqState (α : Type) where
  tCount : Nat
  waiting : List α
  pending : List (Nat × Nat)
deriving Repr

def pendingBufferFull {α : Type} (st : OqState α) : Bool :=
  st.pending.length ≥ oqPendingMax

/-- `oq.query`: park the request when the pending table is full, else
record it under the current transaction counter and bump the counter
modulo 65536. -/
def oqQuery {α : Type} (st : OqState α) (x : α) : OqState α :=
  if pendingBufferFull st then { st with waiting := st.waiting ++ [x] }
  else
    { st with
      pending := jsAssocSet st.pending st.tCount oqPendingTick,
      tCount := if st.tCount + 1 > 65535 then 0 else st.tCount + 1 }

/-- The expiry sweep of `oq.check`: decrement every tick budget and drop
the entries that reach zero (their continuations fire with `null`). -/
def oqExpire {α : Type} (st : OqState α) : OqState α :=
  { st with pending := (st.pending.map (fun p => (p.1, p.2 - 1))).filter (fun p => p.2 > 0) }

/-- The promotion loop of `oq.check`: while the waiting queue is
non-empty and the pending table has room, shift the oldest waiting entry
and resubmit it.  Each iteration moves one entry, so the initial queue
length is enough fuel. -/
def oqPromote {α : Type} : Nat → OqState α → OqState α
  | 0, st => st
  | f + 1, st =>
    match st.waiting with
    | [] => st
    | x :: rest =>
      if pendingBufferFull st then st
      else oqPromote f (oqQuery { st with waiting := rest } x)

/-- `oq.check` (one 100 ms tick): expiry sweep, then promotion. -/
def oqCheck {α : Type} (st : OqState α) : OqState α :=
  let st1 := oqExpire st
  oqPromote st1.waiting.length st1

/-- The events the claims quantify over: submitting an outgoing query
(`oq.query`) and a 100 ms check tick. -/
inductive OqEvent (α : Type) where
  | submit : α → OqEvent α
  | tick : OqEvent α

def oqStep {α : Type} (st : OqState α) : OqEvent α → OqState α
  | .submit x => oqQuery st x
  | .tick => oqCheck st

def oqInit {α : Type} : OqState α := ⟨0, [], []⟩

def oqRun {α : Type} (evs : List (OqEvent α)) : OqState α :=
  evs.foldl oqStep oqInit

/-! # Theorems

First the codec groundwork: decimal printing and `parseInt` agree, and
each decoding routine inverts the corresponding encoding routine. -/

theorem natToDigitsAux_digits :
    ∀ f n, ∀ c ∈ natToDigitsAux f n, 48 ≤ c ∧ c ≤ 57 := by
  intro f
  induction f with
  | zero =>
    intro n c hc
    simp only [natToDigitsAux, List.mem_singleton] at hc
    subst hc
    omega
  | succ f ih =>
    intro n c hc
    simp only [natToDigitsAux] at hc
    split at hc
    · simp only [List.mem_singleton] at hc
      subst hc
      omega
    · rcases List.mem_append.1 hc with h | h
      · exact ih _ c h
      · simp only [List.mem_singleton] at h
        subst h
        omega

theorem natToDigitsAux_ne_nil (f n : Nat) : natToDigitsAux f n ≠ [] := by
  cases f with
  | zero => simp [natToDigitsAux]
  | succ f =>
    simp only [natToDigitsAux]
    split
    · simp
    · simp

theorem natToDigits_digits (n : Nat) : ∀ c ∈ natToDigits n, 48 ≤ c ∧ c ≤ 57 :=
  natToDigitsAux_digits n n

theorem natToDigits_ne_nil (n : Nat) : natToDigits n ≠ [] :=
  natToDigitsAux_ne_nil n n

theorem natToDigitsAux_foldl :
    ∀ f n a, n ≤ f →
      (natToDigitsAux f n).foldl (fun a c => a * 10 + hexVal c) a =
        a * 10 ^ (natToDigitsAux f n).length + n := by
  intro f
  induction f with
  | zero =>
    intro n a hn
    interval_cases n
    simp [natToDigitsAux, hexVal]
  | succ f ih =>
    intro n a hn
    simp only [natToDigitsAux]
    split
    · rename_i h10
      simp only [List.foldl_cons, List.foldl_nil, List.length_singleton]
      have : hexVal (48 + n) = n := by simp [hexVal]; omega
      rw [this]
      ring
    · rename_i h10
      have hdiv : n / 10 ≤ f := by omega
      rw [List.foldl_append, List.length_append]
      simp only [List.foldl_cons, List.foldl_nil, List.length_singleton]
      rw [ih (n / 10) a hdiv]
      have hhex : hexVal (48 + n % 10) = n % 10 := by simp [hexVal]; omega
      rw [hhex, pow_succ]
      have := Nat.div_add_mod n 10
      ring_nf
      omega

theorem digitsToNat_natToDigits (n : Nat) : digitsToNat 10 (natToDigits n) = n := by
  have := natToDigitsAux_foldl n n 0 (le_refl n)
  simpa [digitsToNat, natToDigits] using this

theorem stripSign_of_head_digit (d : Nat) (r : List Nat) (h1 : 48 ≤ d) (h2 : d ≤ 57) :
    stripSign (d :: r) = (false, d :: r) := by
  unfold stripSign
  split
  · rename_i heq
    rw [List.cons.injEq] at heq
    omega
  · rename_i heq
    rw [List.cons.injEq] at heq
    omega
  · rfl

theorem stripHexPrefix_of_digits (l : List Nat) (h : ∀ c ∈ l, 48 ≤ c ∧ c ≤ 57) :
    stripHexPrefix l = (10, l) := by
  unfold stripHexPrefix
  split
  · have := h 120 (by simp)
    omega
  · have := h 88 (by simp)
    omega
  · rfl

theorem map_eq_self_of {α : Type} (f : α → α) (l : List α)
    (h : ∀ a ∈ l, f a = a) : l.map f = l := by
  induction l with
  | nil => rfl
  | cons a as ih => simp [h a (by simp), ih (fun b hb => h b (by simp [hb]))]

theorem takeWhile_eq_self_of_all {p : Nat → Bool} (l : List Nat)
    (h : ∀ c ∈ l, p c = true) : l.takeWhile p = l := by
  induction l with
  | nil => rfl
  | cons d r ih =>
    rw [List.takeWhile_cons, h d (by simp)]
    simp [ih (fun c hc => h c (by simp [hc]))]

theorem jsParseInt_digits (ds : List Nat) (hne : ds ≠ [])
    (h : ∀ c ∈ ds, 48 ≤ c ∧ c ≤ 57) :
    jsParseInt ds = some (Int.ofNat (digitsToNat 10 ds)) := by
  obtain ⟨d, ds', rfl⟩ := List.exists_cons_of_ne_nil hne
  have hmap : (d :: ds').map (fun b => b % 128) = d :: ds' := by
    refine map_eq_self_of _ _ (fun c hc => ?_)
    have := h c hc
    omega
  have hd := h d (by simp)
  have hdw : (d :: ds').dropWhile isWsByte = d :: ds' := by
    rw [List.dropWhile_cons]
    have : isWsByte d = false := by simp [isWsByte]; omega
    simp [this]
  have htw : (d :: ds').takeWhile (fun c => if (10 : Nat) = 16 then isHexDigit c else isDecDigit c)
      = d :: ds' := by
    refine takeWhile_eq_self_of_all _ (fun c hc => ?_)
    have := h c hc
    simp [isDecDigit]
    omega
  simp only [jsParseInt, hmap, hdw, stripSign_of_head_digit d ds' hd.1 hd.2,
    stripHexPrefix_of_digits _ h, htw]
  simp

theorem jsParseInt_natToDigits (n : Nat) :
    jsParseInt (natToDigits n) = some (Int.ofNat n) := by
  rw [jsParseInt_digits _ (natToDigits_ne_nil n) (natToDigits_digits n),
    digitsToNat_natToDigits]

theorem jsParseInt_intToDigits (z : Int) (hlt : z.natAbs < 10 ^ 21) :
    jsParseInt (intToDigits z) = some z := by
  by_cases hz : z < 0
  · have habs : (-z).toNat = z.natAbs := by omega
    simp only [intToDigits, if_pos hz, jsNatDigits, habs, if_pos hlt]
    set m := z.natAbs with hm
    have hdig := natToDigits_digits m
    have hmap : (45 :: natToDigits m).map (fun b => b % 128) = 45 :: natToDigits m := by
      refine map_eq_self_of _ _ (fun c hc => ?_)
      rcases List.mem_cons.1 hc with rfl | hc'
      · norm_num
      · have := hdig c hc'
        omega
    have hdw : (45 :: natToDigits m).dropWhile isWsByte = 45 :: natToDigits m := by
      rw [List.dropWhile_cons]
      norm_num [isWsByte]
    have hsign : stripSign (45 :: natToDigits m) = (true, natToDigits m) := rfl
    have htw : (natToDigits m).takeWhile
        (fun c => if (10 : Nat) = 16 then isHexDigit c else isDecDigit c) = natToDigits m := by
      refine takeWhile_eq_self_of_all _ (fun c hc => ?_)
      have := hdig c hc
      simp [isDecDigit]
      omega
    simp only [jsParseInt, hmap, hdw, hsign, stripHexPrefix_of_digits _ hdig, htw]
    rw [if_neg (by simp [natToDigits_ne_nil m])]
    rw [digitsToNat_natToDigits]
    simp only [Option.some.injEq, if_true]
    rw [hm]
    simp only [Int.ofNat_eq_coe]
    omega
  · have habs : z.toNat = z.natAbs := by omega
    simp only [intToDigits, if_neg hz, jsNatDigits, habs, if_pos hlt]
    rw [jsParseInt_natToDigits]
    congr 1
    simp only [Int.ofNat_eq_coe]
    omega


theorem splitAtByte_append (c : Nat) (pre rest : List Nat) (h : c ∉ pre) :
    splitAtByte c (pre ++ c :: rest) = some (pre, rest) := by
  induction pre with
  | nil => simp [splitAtByte]
  | cons b bs ih =>
    have hb : b ≠ c := by
      intro hbc
      exact h (by simp [hbc])
    simp only [List.cons_append, splitAtByte, if_neg hb]
    rw [show bs.append (c :: rest) = bs ++ c :: rest from rfl,
      ih (fun hc => h (by simp [hc]))]
    rfl

theorem intToDigits_mem (z : Int) (hlt : z.natAbs < 10 ^ 21) :
    ∀ c ∈ intToDigits z, c = 45 ∨ (48 ≤ c ∧ c ≤ 57) := by
  intro c hc
  unfold intToDigits jsNatDigits at hc
  split at hc
  · have habs : (-z).toNat = z.natAbs := by omega
    rw [habs, if_pos hlt] at hc
    rcases List.mem_cons.1 hc with rfl | hc'
    · left; rfl
    · right; exact natToDigits_digits _ c hc'
  · have habs : z.toNat = z.natAbs := by omega
    rw [habs, if_pos hlt] at hc
    right; exact natToDigits_digits _ c hc

theorem decInt_encode (z : Int) (rest : List Nat) (hlt : z.natAbs < 10 ^ 21) :
    decInt (intToDigits z ++ 101 :: rest) = some (.int z, rest) := by
  have hnot : (101 : Nat) ∉ intToDigits z := by
    intro h
    rcases intToDigits_mem z hlt 101 h with h' | h' <;> omega
  simp only [decInt, splitAtByte_append 101 _ rest hnot, jsParseInt_intToDigits z hlt]

theorem decStr_encode (s rest : List Nat) :
    decStr (encStr s ++ rest) = some (s, rest) := by
  have hnot : (58 : Nat) ∉ natToDigits s.length := by
    intro h
    have := natToDigits_digits s.length 58 h
    omega
  have hsplit : splitAtByte 58 (encStr s ++ rest) = some (natToDigits s.length, s ++ rest) := by
    have : encStr s ++ rest = natToDigits s.length ++ 58 :: (s ++ rest) := by
      simp [encStr]
    rw [this, splitAtByte_append 58 _ _ hnot]
  simp only [decStr, hsplit, jsParseInt_natToDigits]
  rw [if_neg (by simp)]
  simp [List.take_left, List.drop_left]

theorem encode_cons (x : Bencode) : ∃ c cs, encode x = c :: cs ∧ c ≠ 101 := by
  cases x with
  | int n => exact ⟨105, _, rfl, by omega⟩
  | str s =>
    obtain ⟨d, ds, hd⟩ := List.exists_cons_of_ne_nil (natToDigits_ne_nil s.length)
    have hdig : 48 ≤ d ∧ d ≤ 57 := natToDigits_digits s.length d (by rw [hd]; simp)
    refine ⟨d, ds ++ 58 :: s, ?_, by omega⟩
    simp [encode, encStr, hd]
  | list xs => exact ⟨108, _, rfl, by omega⟩
  | dict kvs => exact ⟨100, _, rfl, by omega⟩

theorem encode_ne_nil (x : Bencode) : encode x ≠ [] := by
  obtain ⟨c, cs, h, _⟩ := encode_cons x
  simp [h]

theorem decListLoop_tip (f : Nat) (r : List Nat) (acc : List Bencode) :
    decListLoop f (101 :: r) acc = some (.list acc, r) := by
  simp [decListLoop]

theorem decListLoop_step (f : Nat) (c : Nat) (bs : List Nat) (acc : List Bencode)
    (hc : c ≠ 101) :
    decListLoop (f + 1) (c :: bs) acc =
      match decNext f (c :: bs) with
      | some (x, r) => decListLoop f r (acc ++ [x])
      | none => none := by
  rw [decListLoop.eq_def]
  split
  · simp_all
  · simp_all
  · omega
  · rename_i f' heq h1 h2
    obtain rfl : f' = f := by omega
    rfl

theorem decPairsLoop_tip (f : Nat) (r : List Nat) (acc : List (List Nat × Bencode)) :
    decPairsLoop f (101 :: r) acc = some (.dict acc, r) := by
  simp [decPairsLoop]

theorem decPairsLoop_step (f : Nat) (c : Nat) (bs : List Nat)
    (acc : List (List Nat × Bencode)) (hc : c ≠ 101) :
    decPairsLoop (f + 1) (c :: bs) acc =
      match decStr (c :: bs) with
      | some (k, r) =>
        match decNext f r with
        | some (v, r2) => decPairsLoop f r2 (jsObjectSet acc k v)
        | none => none
      | none => none := by
  rw [decPairsLoop.eq_def]
  split
  · simp_all
  · simp_all
  · omega
  · rename_i f' heq h1 h2
    obtain rfl : f' = f := by omega
    rfl

theorem decNext_dispatch_str (f : Nat) (c : Nat) (bs : List Nat)
    (h100 : c ≠ 100) (h108 : c ≠ 108) (h105 : c ≠ 105) :
    decNext (f + 1) (c :: bs) = (decStr (c :: bs)).map (fun p => (.str p.1, p.2)) := by
  rw [decNext.eq_def]
  split
  · omega
  · split
    · simp_all
    · simp_all
    · simp_all
    · rfl

theorem lexLtB_irrefl (a : List Nat) : lexLtB a a = false := by
  induction a with
  | nil => rfl
  | cons x xs ih => simp [lexLtB, ih]

theorem lexLtB_ne (a b : List Nat) (h : lexLtB a b = true) : a ≠ b := by
  intro hab
  rw [hab, lexLtB_irrefl] at h
  exact Bool.false_ne_true h

theorem jsKeyLt_ne (a b : List Nat) (h : jsKeyLt a b = true) : a ≠ b := by
  intro hab
  subst hab
  rw [jsKeyLt, lexLtB_irrefl] at h
  exact Bool.false_ne_true h

theorem sortPairs_of_sorted {β : Type} (l : List (List Nat × β))
    (h : List.Pairwise (fun p q => jsKeyLt p.1 q.1 = true) l) : sortPairs l = l := by
  induction l with
  | nil => rfl
  | cons p ps ih =>
    obtain ⟨h1, h2⟩ := List.pairwise_cons.1 h
    rw [sortPairs, ih h2]
    cases ps with
    | nil => rfl
    | cons q qs => simp [insertPair, h1 q (by simp)]

theorem encKVs_map_fst (kvs : List (List Nat × Bencode)) :
    (encKVs kvs).map Prod.fst = kvs.map Prod.fst := by
  induction kvs with
  | nil => rfl
  | cons p ps ih =>
    obtain ⟨k, v⟩ := p
    simp [encKVs, ih]

theorem encKVs_pairwise (kvs : List (List Nat × Bencode))
    (h : List.Pairwise (fun p q => jsKeyLt p.1 q.1 = true) kvs) :
    List.Pairwise (fun p q => jsKeyLt p.1 q.1 = true) (encKVs kvs) := by
  induction kvs with
  | nil => exact List.Pairwise.nil
  | cons p ps ih =>
    obtain ⟨h1, h2⟩ := List.pairwise_cons.1 h
    obtain ⟨k, v⟩ := p
    refine List.pairwise_cons.2 ⟨?_, ih h2⟩
    intro q hq
    have hq1 : q.1 ∈ ps.map Prod.fst := by
      rw [← encKVs_map_fst]
      exact List.mem_map_of_mem _ hq
    obtain ⟨p', hp', hfst⟩ := List.mem_map.1 hq1
    rw [← hfst]
    exact h1 p' hp'

theorem jsObjectSet_append {β : Type} (acc : List (List Nat × β)) (k : List Nat)
    (v : β) (h : k ∉ acc.map Prod.fst) : jsObjectSet acc k v = acc ++ [(k, v)] := by
  unfold jsObjectSet
  rw [if_neg]
  simpa using h

theorem encStr_cons (s : List Nat) : ∃ c cs, encStr s = c :: cs ∧ c ≠ 101 := by
  obtain ⟨d, ds, hd⟩ := List.exists_cons_of_ne_nil (natToDigits_ne_nil s.length)
  have hdig := natToDigits_digits s.length d (by rw [hd]; simp)
  exact ⟨d, ds ++ 58 :: s, by simp [encStr, hd], by omega⟩

theorem decListLoop_encSeq (xs : List Bencode)
    (IH : ∀ x ∈ xs, ∀ f rest, bNeed x ≤ f → decNext f (encode x ++ rest) = some (x, rest)) :
    ∀ f acc rest, seqNeed xs ≤ f →
      decListLoop f (encSeq xs ++ 101 :: rest) acc = some (.list (acc ++ xs), rest) := by
  induction xs with
  | nil =>
    intro f acc rest _
    simp [encSeq, decListLoop_tip]
  | cons x xs' ih =>
    intro f acc rest h
    rw [seqNeed] at h
    obtain ⟨f', rfl⟩ : ∃ f', f = f' + 1 := ⟨f - 1, by omega⟩
    obtain ⟨c, cs, hx, hc⟩ := encode_cons x
    have hshape : encSeq (x :: xs') ++ 101 :: rest =
        c :: (cs ++ (encSeq xs' ++ 101 :: rest)) := by
      rw [encSeq, hx]
      simp
    rw [hshape, decListLoop_step _ _ _ _ hc]
    have hnext : decNext f' (c :: (cs ++ (encSeq xs' ++ 101 :: rest))) =
        some (x, encSeq xs' ++ 101 :: rest) := by
      have := IH x (by simp) f' (encSeq xs' ++ 101 :: rest) (by omega)
      rw [hx] at this
      simpa using this
    rw [hnext]
    have := ih (fun y hy => IH y (by simp [hy])) f' (acc ++ [x]) rest (by omega)
    simpa using this

theorem decPairsLoop_encPairs (kvs : List (List Nat × Bencode))
    (IH : ∀ p ∈ kvs, ∀ f rest, bNeed p.2 ≤ f → decNext f (encode p.2 ++ rest) = some (p.2, rest)) :
    ∀ f acc rest, pairsNeed kvs ≤ f →
      (acc.map Prod.fst ++ kvs.map Prod.fst).Nodup →
      decPairsLoop f (encPairsOut (encKVs kvs) ++ 101 :: rest) acc =
        some (.dict (acc ++ kvs), rest) := by
  induction kvs with
  | nil =>
    intro f acc rest _ _
    simp [encKVs, encPairsOut, decPairsLoop_tip]
  | cons p kvs' ih =>
    intro f acc rest h hnd
    obtain ⟨k, v⟩ := p
    rw [pairsNeed] at h
    obtain ⟨f', rfl⟩ : ∃ f', f = f' + 1 := ⟨f - 1, by omega⟩
    obtain ⟨c, cs, hk, hc⟩ := encStr_cons k
    have hshape : encPairsOut (encKVs ((k, v) :: kvs')) ++ 101 :: rest =
        c :: (cs ++ (encode v ++ (encPairsOut (encKVs kvs') ++ 101 :: rest))) := by
      rw [encKVs, encPairsOut, hk]
      simp
    rw [hshape, decPairsLoop_step _ _ _ _ hc]
    have hstr : decStr (c :: (cs ++ (encode v ++ (encPairsOut (encKVs kvs') ++ 101 :: rest)))) =
        some (k, encode v ++ (encPairsOut (encKVs kvs') ++ 101 :: rest)) := by
      have := decStr_encode k (encode v ++ (encPairsOut (encKVs kvs') ++ 101 :: rest))
      rw [hk] at this
      simpa using this
    have hnext : decNext f' (encode v ++ (encPairsOut (encKVs kvs') ++ 101 :: rest)) =
        some (v, encPairsOut (encKVs kvs') ++ 101 :: rest) :=
      IH (k, v) (by simp) f' _ (show bNeed v ≤ f' by omega)
    rw [hstr]
    simp only [hnext]
    have hknot : k ∉ acc.map Prod.fst := by
      intro hmem
      have := (List.nodup_append.1 hnd).2.2
      exact this hmem (by simp)
    rw [jsObjectSet_append acc k v hknot]
    have hnd' : ((acc ++ [(k, v)]).map Prod.fst ++ kvs'.map Prod.fst).Nodup := by
      have : (acc ++ [(k, v)]).map Prod.fst ++ kvs'.map Prod.fst =
          acc.map Prod.fst ++ (k, v).1 :: kvs'.map Prod.fst := by
        simp
      rw [this]
      simpa using hnd
    have := ih (fun q hq => IH q (by simp [hq])) f' (acc ++ [(k, v)]) rest (by omega) hnd'
    simpa using this

theorem decNext_encode (x : Bencode) (wf : WFBencode x) :
    ∀ f rest, bNeed x ≤ f → decNext f (encode x ++ rest) = some (x, rest) := by
  induction wf with
  | int n hn =>
    intro f rest h
    obtain ⟨f', rfl⟩ : ∃ f', f = f' + 1 := ⟨f - 1, by simp [bNeed] at h; omega⟩
    have hshape : encode (.int n) ++ rest = 105 :: (intToDigits n ++ 101 :: rest) := by
      simp [encode]
    rw [hshape]
    simp only [decNext]
    exact decInt_encode n rest hn
  | str s hb =>
    intro f rest h
    obtain ⟨f', rfl⟩ : ∃ f', f = f' + 1 := ⟨f - 1, by simp [bNeed] at h; omega⟩
    obtain ⟨d, ds, hd⟩ := List.exists_cons_of_ne_nil (natToDigits_ne_nil s.length)
    have hdig := natToDigits_digits s.length d (by rw [hd]; simp)
    have hshape : encode (.str s) ++ rest = d :: (ds ++ 58 :: (s ++ rest)) := by
      simp [encode, encStr, hd]
    rw [hshape, decNext_dispatch_str f' d _ (by omega) (by omega) (by omega)]
    have hds : decStr (d :: (ds ++ 58 :: (s ++ rest))) = some (s, rest) := by
      have := decStr_encode s rest
      rw [encStr, hd] at this
      simpa using this
    rw [hds]
    rfl
  | list xs hwf ih =>
    intro f rest h
    rw [bNeed] at h
    obtain ⟨f', rfl⟩ : ∃ f', f = f' + 1 := ⟨f - 1, by omega⟩
    have hshape : encode (.list xs) ++ rest = 108 :: (encSeq xs ++ 101 :: rest) := by
      simp [encode]
    rw [hshape]
    simp only [decNext]
    have := decListLoop_encSeq xs ih f' [] rest (by omega)
    simpa using this
  | dict kvs hkb hwf hpair ih =>
    intro f rest h
    rw [bNeed] at h
    obtain ⟨f', rfl⟩ : ∃ f', f = f' + 1 := ⟨f - 1, by omega⟩
    have hsort : sortPairs (encKVs kvs) = encKVs kvs :=
      sortPairs_of_sorted _ (encKVs_pairwise kvs hpair)
    have hshape : encode (.dict kvs) ++ rest =
        100 :: (encPairsOut (encKVs kvs) ++ 101 :: rest) := by
      simp [encode, hsort]
    rw [hshape]
    simp only [decNext]
    have hnd : (([] : List (List Nat × Bencode)).map Prod.fst ++ kvs.map Prod.fst).Nodup := by
      simp only [List.map_nil, List.nil_append]
      refine List.Pairwise.map Prod.fst ?_ hpair
      intro p q hpq
      exact jsKeyLt_ne _ _ hpq
    have := decPairsLoop_encPairs kvs (fun p hp => ih p hp) f' [] rest (by omega) hnd
    simpa using this

theorem encStr_length (s : List Nat) : 2 ≤ (encStr s).length := by
  rw [encStr]
  obtain ⟨d, ds, hd⟩ := List.exists_cons_of_ne_nil (natToDigits_ne_nil s.length)
  rw [hd]
  simp
  omega

theorem encode_length_pos (x : Bencode) : 1 ≤ (encode x).length := by
  obtain ⟨c, cs, h, _⟩ := encode_cons x
  rw [h]
  simp

theorem encPairsOut_insertPair (p : List Nat × List Nat)
    (l : List (List Nat × List Nat)) :
    (encPairsOut (insertPair p l)).length = (encStr p.1 ++ p.2).length + (encPairsOut l).length := by
  induction l with
  | nil =>
    obtain ⟨k, ev⟩ := p
    simp [insertPair, encPairsOut]
  | cons q qs ih =>
    obtain ⟨k, ev⟩ := p
    obtain ⟨k', ev'⟩ := q
    rw [insertPair]
    split
    · simp only [encPairsOut, List.length_append]
    · simp only [encPairsOut, List.length_append]
      simp only [encPairsOut, List.length_append] at ih
      omega

theorem encPairsOut_sortPairs_length (l : List (List Nat × List Nat)) :
    (encPairsOut (sortPairs l)).length = (encPairsOut l).length := by
  induction l with
  | nil => rfl
  | cons p ps ih =>
    rw [sortPairs, encPairsOut_insertPair]
    obtain ⟨k, ev⟩ := p
    simp only [encPairsOut, List.length_append]
    simp at ih ⊢
    omega

mutual

theorem bNeed_le (x : Bencode) : bNeed x ≤ (encode x).length := by
  cases x with
  | int n =>
    have := encode_length_pos (.int n)
    rw [bNeed]
    omega
  | str s =>
    have := encode_length_pos (.str s)
    rw [bNeed]
    omega
  | list xs =>
    rw [bNeed, encode]
    have := seqNeed_le xs
    simp only [List.length_cons, List.length_append, List.length_singleton]
    omega
  | dict kvs =>
    rw [bNeed, encode]
    have := pairsNeed_le kvs
    simp only [List.length_cons, List.length_append, List.length_singleton,
      encPairsOut_sortPairs_length]
    omega

theorem seqNeed_le (xs : List Bencode) : seqNeed xs ≤ (encSeq xs).length + 1 := by
  cases xs with
  | nil => simp [seqNeed]
  | cons x xs' =>
    rw [seqNeed, encSeq]
    have h1 := bNeed_le x
    have h2 := seqNeed_le xs'
    have h3 := encode_length_pos x
    simp only [List.length_append]
    omega

theorem pairsNeed_le (kvs : List (List Nat × Bencode)) :
    pairsNeed kvs ≤ (encPairsOut (encKVs kvs)).length + 1 := by
  cases kvs with
  | nil => simp [pairsNeed]
  | cons p kvs' =>
    obtain ⟨k, v⟩ := p
    rw [pairsNeed, encKVs, encPairsOut]
    have h1 := bNeed_le v
    have h2 := pairsNeed_le kvs'
    have h3 := encStr_length k
    simp only [List.length_append]
    omega

end

/-- C2 (corrected): for every supported bencode value `x` — integer of
magnitude below `10^21`, byte string, list, or dictionary with
byte-string keys in canonical (sorted, duplicate-free) form, nested
arbitrarily — decoding the encoding yields `x` again:
`decode (encode x) = some x`.  The magnitude bound is necessary: at
`10^21` JS prints the integer in exponent form and the round trip fails
in the program (see the counterexample). -/
theorem claim_C2_roundtrip (x : Bencode) (wf : WFBencode x) :
    decode (encode x) = some x := by
  rw [decode]
  have hf : bNeed x ≤ decodeFuel (encode x) := by
    have := bNeed_le x
    rw [decodeFuel]
    omega
  have h := decNext_encode x wf (decodeFuel (encode x)) []
  rw [List.append_nil] at h
  rw [h hf]
  rfl

/-- Witness for C2 at a concrete nested value. -/
theorem claim_C2_roundtrip_witness :
    WFBencode (.dict [([97], .list [.int (-5), .str [120, 121]]), ([98, 99], .int 0)]) ∧
    decode (encode (.dict [([97], .list [.int (-5), .str [120, 121]]), ([98, 99], .int 0)])) =
      some (.dict [([97], .list [.int (-5), .str [120, 121]]), ([98, 99], .int 0)]) := by
  have wf : WFBencode (.dict [([97], .list [.int (-5), .str [120, 121]]), ([98, 99], .int 0)]) := by
    refine WFBencode.dict _ (by decide) ?_ (by decide)
    intro p hp
    rcases List.mem_cons.1 hp with rfl | hp'
    · refine WFBencode.list _ ?_
      intro y hy
      rcases List.mem_cons.1 hy with rfl | hy'
      · exact WFBencode.int _ (by norm_num)
      · rcases List.mem_cons.1 hy' with rfl | hy''
        · exact WFBencode.str _ (by decide)
        · cases hy''
    · rcases List.mem_cons.1 hp' with rfl | hp''
      · exact WFBencode.int _ (by norm_num)
      · cases hp''
  exact ⟨wf, claim_C2_roundtrip _ wf⟩

/-- C2 counterexample: at `10^21` (an exactly representable double, so a
realizable `Number.isInteger` input) JS prints the integer in exponent
form and the source emits `i1e+21e`; the decoder's `find('e')` stops at
the inner `e` of `1e+21`, `parseInt` reads `1`, and the round trip
returns `1` instead of `10^21`. -/
theorem claim_C2_counterexample :
    encode (.int (10 ^ 21)) = [105, 49, 101, 43, 50, 49, 101] ∧
    decode (encode (.int (10 ^ 21))) = some (.int 1) ∧
    (10 ^ 21 : Int) ≠ 1 := by
  refine ⟨rfl, rfl, by norm_num⟩

/-- The bencode encoding of a singleton dictionary: a `d`, the key
string, the encoded value, an `e`. -/
theorem encode_singleton_dict (k : List Nat) (x : Bencode) :
    encode (.dict [(k, x)]) = 100 :: ((encStr k ++ encode x) ++ [101]) := by
  simp [encode, encKVs, sortPairs, insertPair, encPairsOut]

/-- `es` strips exactly the `d` and the `e` from a singleton dictionary. -/
theorem esFrag_singleton (k : List Nat) (x : Bencode) :
    esFrag (.dict [(k, x)]) = encStr k ++ encode x := by
  rw [esFrag, encode_singleton_dict]
  simp only [List.drop_succ_cons, List.drop_zero]
  exact List.dropLast_concat ..

/-- C6: `packSeqSalt(seq, v, salt)` is the concatenation of the bencode
fragments for the singleton dictionaries `{salt}`, `{seq}`, `{v}` in that
order, each fragment the singleton-dictionary bencoding with the leading
`d` and trailing `e` stripped (that is, the key string followed by the
encoded value), with the salt fragment omitted when salt is absent or
empty. -/
theorem claim_C6_packSeqSalt (seq : Int) (v : Bencode) (salt : List Nat) :
    (∀ k x, encode (.dict [(k, x)]) = 100 :: ((encStr k ++ encode x) ++ [101])) ∧
    packSeqSalt seq v none =
      (encStr seqKey ++ encode (.int seq)) ++ (encStr vKey ++ encode v) ∧
    packSeqSalt seq v (some []) =
      (encStr seqKey ++ encode (.int seq)) ++ (encStr vKey ++ encode v) ∧
    (salt ≠ [] → packSeqSalt seq v (some salt) =
      (encStr saltKey ++ encode (.str salt)) ++
        ((encStr seqKey ++ encode (.int seq)) ++ (encStr vKey ++ encode v))) := by
  refine ⟨encode_singleton_dict, ?_, ?_, ?_⟩
  · rw [packSeqSalt]
    simp [esFrag_singleton]
  · rw [packSeqSalt]
    simp [esFrag_singleton]
  · intro hs
    rw [packSeqSalt]
    rw [if_neg (by simpa using hs)]
    simp [esFrag_singleton]

/-- Witness for C6 with a non-empty salt. -/
theorem claim_C6_packSeqSalt_witness :
    [7] ≠ ([] : List Nat) ∧
    packSeqSalt 1 (.int 2) (some [7]) =
      (encStr saltKey ++ encode (.str [7])) ++
        ((encStr seqKey ++ encode (.int 1)) ++ (encStr vKey ++ encode (.int 2))) :=
  ⟨by decide, (claim_C6_packSeqSalt 1 (.int 2) [7]).2.2.2 (by decide)⟩

theorem lexLtB_asymm (a b : List Nat) (h : lexLtB a b = true) : lexLtB b a = false := by
  induction a generalizing b with
  | nil =>
    cases b with
    | nil => simp [lexLtB] at h
    | cons y ys => simp [lexLtB]
  | cons x xs ih =>
    cases b with
    | nil => simp [lexLtB] at h
    | cons y ys =>
      rw [lexLtB] at h ⊢
      by_cases hxy : x < y
      · rw [if_neg (by omega), if_pos hxy]
      · rw [if_neg hxy] at h
        by_cases hyx : y < x
        · rw [if_pos hyx] at h
          exact absurd h (by simp)
        · rw [if_neg hyx] at h
          rw [if_neg hyx, if_neg hxy]
          exact ih ys h

theorem lexLtB_iff_lex (a b : List Nat) :
    lexLtB a b = true ↔ List.Lex (· < ·) a b := by
  induction a generalizing b with
  | nil =>
    cases b with
    | nil =>
      simp only [lexLtB]
      constructor
      · intro h
        exact absurd h (by simp)
      · intro h
        cases h
    | cons y ys =>
      simp only [lexLtB]
      constructor
      · intro _
        exact List.Lex.nil
      · intro _
        trivial
  | cons x xs ih =>
    cases b with
    | nil =>
      simp only [lexLtB]
      constructor
      · intro h
        exact absurd h (by simp)
      · intro h
        cases h
    | cons y ys =>
      rw [lexLtB]
      by_cases hxy : x < y
      · rw [if_pos hxy]
        constructor
        · intro _
          exact List.Lex.rel hxy
        · intro _
          trivial
      · rw [if_neg hxy]
        by_cases hyx : y < x
        · rw [if_pos hyx]
          constructor
          · intro h
            exact absurd h (by simp)
          · intro h
            cases h with
            | cons h' => omega
            | rel h' => omega
        · rw [if_neg hyx]
          have hxye : x = y := by omega
          subst hxye
          rw [ih ys]
          constructor
          · intro h
            exact List.Lex.cons h
          · intro h
            cases h with
            | cons h' => exact h'
            | rel h' => omega

theorem lexLtB_trans (a b c : List Nat) (hab : lexLtB a b = true)
    (hbc : lexLtB b c = true) : lexLtB a c = true := by
  induction a generalizing b c with
  | nil =>
    cases b with
    | nil => simp [lexLtB] at hab
    | cons y ys =>
      cases c with
      | nil => simp [lexLtB] at hbc
      | cons z zs => simp [lexLtB]
  | cons x xs ih =>
    cases b with
    | nil => simp [lexLtB] at hab
    | cons y ys =>
      cases c with
      | nil => simp [lexLtB] at hbc
      | cons z zs =>
        rw [lexLtB] at hab hbc ⊢
        by_cases hxy : x < y
        · by_cases hyz : y < z
          · rw [if_pos (by omega)]
          · rw [if_neg hyz] at hbc
            by_cases hzy : z < y
            · rw [if_pos hzy] at hbc
              exact absurd hbc (by simp)
            · have : y = z := by omega
              subst this
              rw [if_pos hxy]
        · rw [if_neg hxy] at hab
          by_cases hyx : y < x
          · rw [if_pos hyx] at hab
            exact absurd hab (by simp)
          · have hxye : x = y := by omega
            subst hxye
            rw [if_neg (by omega)] at hab
            by_cases hxz : x < z
            · rw [if_pos hxz]
            · rw [if_neg hxz] at hbc ⊢
              by_cases hzx : z < x
              · rw [if_pos hzx] at hbc
                exact absurd hbc (by simp)
              · rw [if_neg hzx] at hbc ⊢
                exact ih ys zs hab hbc

theorem jsKeyLt_asymm (a b : List Nat) (h : jsKeyLt a b = true) :
    jsKeyLt b a = false := by
  rw [jsKeyLt] at h ⊢
  exact lexLtB_asymm _ _ h

theorem jsKeyLt_trans_aux {β : Type} (p q r : List Nat × β)
    (hpq : jsKeyLt p.1 q.1 = true) (hrq : jsKeyLt r.1 q.1 = false) :
    jsKeyLt r.1 p.1 = false := by
  cases h : jsKeyLt r.1 p.1 with
  | false => rfl
  | true =>
    rw [jsKeyLt] at h hpq hrq
    rw [lexLtB_trans _ _ _ h hpq] at hrq
    exact absurd hrq (by simp)

theorem mem_insertPair {β : Type} (p q : List Nat × β) (l : List (List Nat × β))
    (h : q ∈ insertPair p l) : q = p ∨ q ∈ l := by
  induction l with
  | nil => simpa [insertPair] using h
  | cons r rs ih =>
    rw [insertPair] at h
    split at h
    · rcases List.mem_cons.1 h with rfl | h'
      · exact Or.inl rfl
      · exact Or.inr h'
    · rcases List.mem_cons.1 h with rfl | h'
      · exact Or.inr (by simp)
      · rcases ih h' with h'' | h''
        · exact Or.inl h''
        · exact Or.inr (by simp [h''])

theorem pairwise_insertPair {β : Type} (p : List Nat × β) (l : List (List Nat × β))
    (h : List.Pairwise (fun a b => jsKeyLt b.1 a.1 = false) l) :
    List.Pairwise (fun a b => jsKeyLt b.1 a.1 = false) (insertPair p l) := by
  induction l with
  | nil => simp [insertPair]
  | cons q qs ih =>
    obtain ⟨h1, h2⟩ := List.pairwise_cons.1 h
    rw [insertPair]
    split
    · rename_i hlt
      refine List.pairwise_cons.2 ⟨?_, h⟩
      intro r hr
      rcases List.mem_cons.1 hr with rfl | hr'
      · exact jsKeyLt_asymm _ _ hlt
      · -- r is after q in the sorted tail, so q ≤ r; combined with p < q
        -- transitivity is not needed: we must show `jsKeyLt r.1 p.1 = false`
        -- from `jsKeyLt p.1 q.1 = true` and `jsKeyLt r.1 q.1 = false`…
        exact jsKeyLt_trans_aux p q r hlt (h1 r hr')
    · rename_i hnlt
      refine List.pairwise_cons.2 ⟨?_, ih h2⟩
      intro r hr
      rcases mem_insertPair p r qs hr with rfl | hr'
      · simpa using hnlt
      · exact h1 r hr'

theorem pairwise_sortPairs {β : Type} (l : List (List Nat × β)) :
    List.Pairwise (fun a b => jsKeyLt b.1 a.1 = false) (sortPairs l) := by
  induction l with
  | nil => exact .nil
  | cons p ps ih => exact pairwise_insertPair p _ ih

theorem mem_sortPairs {β : Type} (l : List (List Nat × β)) (q : List Nat × β)
    (h : q ∈ sortPairs l) : q ∈ l := by
  induction l with
  | nil => simpa [sortPairs] using h
  | cons p ps ih =>
    rw [sortPairs] at h
    rcases mem_insertPair p q _ h with rfl | h'
    · simp
    · simp [ih h']

theorem utf8Cps_ascii : ∀ (f : Nat) (k : List Nat), k.length ≤ f →
    (∀ b ∈ k, b < 128) → utf8Cps f k = k := by
  intro f
  induction f with
  | zero =>
    intro k hf _
    have hnil : k = [] := List.length_eq_zero.1 (Nat.le_zero.1 hf)
    subst hnil
    rfl
  | succ f ih =>
    intro k hf hk
    cases k with
    | nil => rfl
    | cons b bs =>
      have hb : b < 128 := hk b (by simp)
      have hbs : bs.length ≤ f := by
        simp only [List.length_cons] at hf
        omega
      simp only [utf8Cps, if_pos (show b < 192 by omega)]
      rw [ih bs hbs (fun c hc => hk c (by simp [hc]))]

theorem keyUnits_ascii (k : List Nat) (h : ∀ b ∈ k, b < 128) : keyUnits k = k := by
  rw [keyUnits, utf8Cps_ascii k.length k (le_refl _) h]
  induction k with
  | nil => rfl
  | cons b bs ih =>
    have hb : b < 128 := h b (by simp)
    rw [List.flatMap_cons, cpUnits, if_pos (by omega)]
    rw [ih (fun c hc => h c (by simp [hc]))]
    rfl

theorem sortPairs_keys_sub (kvs : List (List Nat × Bencode)) (a : List Nat)
    (ha : a ∈ (sortPairs (encKVs kvs)).map Prod.fst) : a ∈ kvs.map Prod.fst := by
  obtain ⟨p, hp, rfl⟩ := List.mem_map.1 ha
  have hp' : p ∈ encKVs kvs := mem_sortPairs _ _ hp
  rw [← encKVs_map_fst]
  exact List.mem_map_of_mem _ hp'

/-- C8 (corrected): the encoder emits exactly the entries of
`sortPairs (encKVs kvs)` between the `d` and the `e`, and that entry
list's keys ascend in the order `Object.keys(d).sort()` actually uses —
JS string comparison, i.e. lexicographic on the UTF-16 code units of the
key strings, not on the emitted raw UTF-8 bytes.  When every key byte is
ASCII (below 128, as all protocol keys are) the two orders coincide and
the keys are also in raw-byte lexicographic order; for
supplementary-plane keys they can differ (see the counterexample). -/
theorem claim_C8_dict_keys_sorted (kvs : List (List Nat × Bencode)) :
    encode (.dict kvs) = 100 :: (encPairsOut (sortPairs (encKVs kvs)) ++ [101]) ∧
    List.Pairwise (fun a b => ¬ List.Lex (· < ·) (keyUnits b) (keyUnits a))
      ((sortPairs (encKVs kvs)).map Prod.fst) ∧
    ((∀ k ∈ kvs.map Prod.fst, ∀ b ∈ k, b < 128) →
      List.Pairwise (fun a b => ¬ List.Lex (· < ·) b a)
        ((sortPairs (encKVs kvs)).map Prod.fst)) := by
  have h2 : List.Pairwise (fun a b => ¬ List.Lex (· < ·) (keyUnits b) (keyUnits a))
      ((sortPairs (encKVs kvs)).map Prod.fst) := by
    refine List.Pairwise.map Prod.fst ?_ (pairwise_sortPairs _)
    intro p q hpq hlex
    rw [← lexLtB_iff_lex] at hlex
    rw [show lexLtB (keyUnits q.1) (keyUnits p.1) = jsKeyLt q.1 p.1 from rfl, hpq] at hlex
    exact absurd hlex (by simp)
  refine ⟨by simp [encode], h2, fun hascii => ?_⟩
  refine h2.imp_of_mem ?_
  intro a b ha hb hab
  rw [keyUnits_ascii a (hascii a (sortPairs_keys_sub kvs a ha)),
    keyUnits_ascii b (hascii b (sortPairs_keys_sub kvs b hb))] at hab
  exact hab

/-- C8 counterexample: a dictionary with the keys U+10000 (UTF-8 bytes
`F0 90 80 80`, UTF-16 units `D800 DC00`) and U+E000 (UTF-8 `EE 80 80`,
single unit `E000`).  JS sorts U+10000 first (code unit `0xD800 <
0xE000`), so the encoder emits the `F0…` key before the raw-byte-smaller
`EE…` key: the emitted keys are not in lexicographic raw-byte order. -/
theorem claim_C8_counterexample :
    ¬ List.Pairwise (fun a b => ¬ List.Lex (· < ·) b a)
      ((sortPairs (encKVs
        [([238, 128, 128], .int 0), ([240, 144, 128, 128], .int 1)])).map Prod.fst) := by
  intro h
  have hl : (sortPairs (encKVs
      [([238, 128, 128], Bencode.int 0), ([240, 144, 128, 128], Bencode.int 1)])).map Prod.fst
      = [[240, 144, 128, 128], [238, 128, 128]] := rfl
  rw [hl] at h
  have h1 := (List.pairwise_cons.1 h).1 [238, 128, 128] (by simp)
  exact h1 (List.Lex.rel (by norm_num))

/-- Witness for the ASCII clause of C8 at a concrete dictionary. -/
theorem claim_C8_dict_keys_sorted_witness :
    List.Pairwise (fun a b => ¬ List.Lex (· < ·) b a)
      ((sortPairs (encKVs [([118], Bencode.int 7), ([105, 100], Bencode.int 3)])).map
        Prod.fst) :=
  (claim_C8_dict_keys_sorted [([118], Bencode.int 7), ([105, 100], Bencode.int 3)]).2.2
    (by decide)

/-! ## C5 — token minting and validation -/

/-- C5: the token minted for an incoming query's sender is the hash of
the 26-byte node (id ∥ loc) followed by the current secret; a presented
token is accepted iff it equals the token derived from the current or
from the previous secret; hence a token minted from the current secret is
still accepted after one rotation, and after two rotations it is rejected
provided the fresh secrets do not produce hash collisions with it. -/
theorem claim_C5_tokens (H : List Nat → List Nat) (st : Secrets) (c : Contact)
    (f1 f2 : List Nat) :
    (queryToken H st c = H (c.id ++ c.loc ++ st.secret)) ∧
    (validToken H st c none = false) ∧
    (∀ t, validToken H st c (some t) = true ↔
      t = mintToken H (contactsToNodes [c]) st.secret ∨
      t = mintToken H (contactsToNodes [c]) st.oldSecret) ∧
    (validToken H st c (some (mintToken H (contactsToNodes [c]) st.secret)) = true) ∧
    (validToken H (newSecret st f1) c
      (some (mintToken H (contactsToNodes [c]) st.secret)) = true) ∧
    (H (contactsToNodes [c] ++ st.secret) ≠ H (contactsToNodes [c] ++ f1) →
     H (contactsToNodes [c] ++ st.secret) ≠ H (contactsToNodes [c] ++ f2) →
     validToken H (newSecret (newSecret st f1) f2) c
      (some (mintToken H (contactsToNodes [c]) st.secret)) = false) := by
  refine ⟨?_, rfl, ?_, ?_, ?_, ?_⟩
  · rw [queryToken, mintToken, contactsToNodes]
    simp
  · intro t
    rw [validToken, queryToken, queryOldToken]
    simp
  · rw [validToken]
    simp [queryToken]
  · rw [validToken]
    simp [queryOldToken, newSecret]
  · intro h1 h2
    rw [validToken, newSecret, newSecret]
    simp only [queryToken, queryOldToken, mintToken, decide_eq_false_iff_not]
    push_neg
    exact ⟨h2, h1⟩

/-- Witness for C5 at concrete secrets, sender and hash. -/
theorem claim_C5_tokens_witness :
    (validToken (fun l => l) ⟨[1], [2]⟩ ⟨[0], [9], 0⟩
      (some (mintToken (fun l => l) (contactsToNodes [⟨[0], [9], 0⟩]) [1])) = true) ∧
    (validToken (fun l => l) (newSecret (newSecret ⟨[1], [2]⟩ [3]) [4]) ⟨[0], [9], 0⟩
      (some (mintToken (fun l => l) (contactsToNodes [⟨[0], [9], 0⟩]) [1])) = false) :=
  ⟨(claim_C5_tokens (fun l => l) ⟨[1], [2]⟩ ⟨[0], [9], 0⟩ [3] [4]).2.2.2.1,
   (claim_C5_tokens (fun l => l) ⟨[1], [2]⟩ ⟨[0], [9], 0⟩ [3] [4]).2.2.2.2.2
     (by decide) (by decide)⟩

/-! ## C7 — pending-query cap and FIFO waiting queue -/

theorem jsAssocSet_length {κ β : Type} [BEq κ] (l : List (κ × β)) (k : κ) (v : β) :
    (jsAssocSet l k v).length ≤ l.length + 1 := by
  rw [jsAssocSet]
  split
  · simp
  · simp

theorem oqQuery_pending_le {α : Type} (st : OqState α) (x : α)
    (h : st.pending.length ≤ oqPendingMax) :
    (oqQuery st x).pending.length ≤ oqPendingMax := by
  rw [oqQuery]
  split
  · exact h
  · rename_i hfull
    simp only [pendingBufferFull, decide_eq_true_eq] at hfull
    have := jsAssocSet_length st.pending st.tCount oqPendingTick
    simp only []
    omega

theorem oqPromote_pending_le {α : Type} :
    ∀ (f : Nat) (st : OqState α), st.pending.length ≤ oqPendingMax →
      (oqPromote f st).pending.length ≤ oqPendingMax := by
  intro f
  induction f with
  | zero =>
    intro st h
    exact h
  | succ f ih =>
    intro st h
    rw [oqPromote]
    split
    · exact h
    · split
      · exact h
      · exact ih _ (oqQuery_pending_le _ _ h)

theorem oqStep_pending_le {α : Type} (st : OqState α) (e : OqEvent α)
    (h : st.pending.length ≤ oqPendingMax) :
    (oqStep st e).pending.length ≤ oqPendingMax := by
  cases e with
  | submit x => exact oqQuery_pending_le st x h
  | tick =>
    rw [oqStep, oqCheck]
    refine oqPromote_pending_le _ _ ?_
    rw [oqExpire]
    simp only []
    calc ((st.pending.map (fun p => (p.1, p.2 - 1))).filter (fun p => p.2 > 0)).length
        ≤ (st.pending.map (fun p => (p.1, p.2 - 1))).length := List.length_filter_le _ _
      _ = st.pending.length := List.length_map _ _
      _ ≤ oqPendingMax := h

theorem oqFold_pending_le {α : Type} :
    ∀ (evs : List (OqEvent α)) (st : OqState α), st.pending.length ≤ oqPendingMax →
      (evs.foldl oqStep st).pending.length ≤ oqPendingMax := by
  intro evs
  induction evs with
  | nil =>
    intro st h
    exact h
  | cons e evs' ih =>
    intro st h
    exact ih _ (oqStep_pending_le st e h)

/-- C7: over any sequence of outgoing-query submissions and 100 ms check
ticks the pending table never exceeds 20 entries; a query submitted while
the table is full is appended to the back of the waiting queue with the
pending table untouched; and at a check tick the promotion loop takes
waiting entries from the front, one per free slot, stopping as soon as
the pending table is full or the queue is empty. -/
theorem claim_C7_pending_cap {α : Type} (evs : List (OqEvent α)) :
    (oqRun evs).pending.length ≤ oqPendingMax ∧
    (∀ (st : OqState α) (x : α), pendingBufferFull st = true →
      oqQuery st x = { st with waiting := st.waiting ++ [x] }) ∧
    (∀ (st : OqState α) (f : Nat) (x : α) (rest : List α),
      st.waiting = x :: rest → pendingBufferFull st = false →
      oqPromote (f + 1) st = oqPromote f (oqQuery { st with waiting := rest } x)) ∧
    (∀ (st : OqState α) (f : Nat), pendingBufferFull st = true ∨ st.waiting = [] →
      oqPromote f st = st) := by
  refine ⟨oqFold_pending_le evs oqInit (by simp [oqInit, oqPendingMax]), ?_, ?_, ?_⟩
  · intro st x hfull
    rw [oqQuery, if_pos hfull]
  · intro st f x rest hw hfull
    rw [oqPromote, hw]
    simp only [hfull]
    rfl
  · intro st f h
    cases f with
    | zero => rfl
    | succ f =>
      rw [oqPromote]
      rcases h with h | h
      · cases hw : st.waiting with
        | nil => rfl
        | cons x rest => simp [h]
      · rw [h]

/-- Witness for C7: a full pending table parks the submission, and a
burst of 25 submissions never pushes the pending table above 20. -/
theorem claim_C7_pending_cap_witness :
    (oqRun (List.replicate 25 (OqEvent.submit ()))).pending.length ≤ oqPendingMax ∧
    (pendingBufferFull (⟨0, [], (List.range 20).map (fun i => (i, 5))⟩ : OqState Unit) = true ∧
     oqQuery (⟨0, [], (List.range 20).map (fun i => (i, 5))⟩ : OqState Unit) () =
       ⟨0, [()], (List.range 20).map (fun i => (i, 5))⟩) := by
  refine ⟨(claim_C7_pending_cap _).1, by decide,
    (claim_C7_pending_cap ([] : List (OqEvent Unit))).2.1 _ () (by decide)⟩

/-! ## C1 and C10 — the mutable `put` error paths -/

/-- Under a valid token and all mutable-path guards, `putQuery` reduces
to the tail of the mutable branch with the target derived from `k` and
the optional salt. -/
theorem putQuery_mutable (verify : List Nat → List Nat → List Nat → Bool)
    (H : List Nat → List Nat) (myId : List Nat) (st : Secrets) (sender : Contact)
    (now : Nat) (store : Store) (tok : List Nat) (v : Bencode)
    (k g : List Nat) (s : Int) (salt : Option (List Nat)) (cas : Option Int)
    (htok : tok = queryToken H st sender ∨ tok = queryOldToken H st sender)
    (hv : bencTruthy v = true) (hlen : (encode v).length ≤ utMaxV)
    (hs : s ≠ 0) (hk : k.length = utKeyLen) (hg : g.length = utSigLen)
    (hverify : verify g (packSeqSalt s v salt) k = true)
    (hsalt : ∀ sl ∈ salt, sl.length ≤ utSaltLen) :
    putQuery verify H myId st sender now store
      ⟨some tok, some v, some k, some s, some g, salt, cas⟩ =
      putMutableTail myId store v k s g cas (mutableTargetOf H k salt) now := by
  have hvt : validToken H st sender (some tok) = true := by
    rw [validToken]
    exact decide_eq_true htok
  rw [putQuery]
  simp only [hvt, Bool.true_eq_false, if_neg (by simp : ¬ (true = false))]
  simp only [hv, if_neg (by simp : ¬ (true = false)), if_neg (by omega : ¬ (encode v).length > utMaxV)]
  rw [if_neg hs, if_neg (by omega : ¬ (k.length ≠ utKeyLen ∨ g.length ≠ utSigLen))]
  rw [hverify, if_neg (by simp : ¬ (true = false))]
  cases salt with
  | none => rfl
  | some sl =>
    have hl := hsalt sl (by simp)
    show (if sl.length > utSaltLen then ((PutReply.err 207 "Salt too big", store) : PutReply × Store)
        else putMutableTail myId store v k s g cas (H (k ++ sl)) now) = _
    rw [if_neg (by omega)]
    rfl

/-- The CAS branch of the stored-datum checks: a present `cas` that
differs from the stored `seq` answers 301 and leaves the store alone. -/
theorem putMutableTail_cas (myId : List Nat) (store : Store) (v : Bencode)
    (k : List Nat) (s : Int) (g : List Nat) (c : Int) (target : List Nat)
    (now : Nat) (hne : (getData store target).seq ≠ some c) :
    putMutableTail myId store v k s g (some c) target now =
      (.err 301 "CAS mismatch", store) := by
  rw [putMutableTail]
  simp only [decide_eq_true (show (getData store target).seq ≠ some c from hne), if_true]

/-- The stored-seq-greater branch: 302 and no mutation. -/
theorem putMutableTail_seqGt (myId : List Nat) (store : Store) (v : Bencode)
    (k : List Nat) (s : Int) (g : List Nat) (cas : Option Int) (target : List Nat)
    (now : Nat) (sseq : Int)
    (hseq : (getData store target).seq = some sseq)
    (hcas : cas = none ∨ cas = some sseq)
    (hgt : s < sseq) :
    putMutableTail myId store v k s g cas target now =
      (.err 302 "Sequence number too small", store) := by
  rcases hcas with rfl | rfl
  · simp only [putMutableTail, hseq]
    rw [if_neg (by simp)]
    rw [if_pos (by simp [hgt])]
  · simp only [putMutableTail, hseq]
    rw [if_neg (by simp)]
    rw [if_pos (by simp [hgt])]

/-- The equal-seq-different-value branch: 302 and no mutation. -/
theorem putMutableTail_seqEq (myId : List Nat) (store : Store) (v : Bencode)
    (k : List Nat) (s : Int) (g : List Nat) (cas : Option Int) (target : List Nat)
    (now : Nat) (sseq : Int) (ov : Bencode)
    (hseq : (getData store target).seq = some sseq)
    (hv : (getData store target).v = some ov)
    (hcas : cas = none ∨ cas = some sseq)
    (heq : sseq = s) (hvne : encode ov ≠ encode v) :
    putMutableTail myId store v k s g cas target now =
      (.err 302 "Sequence number too small", store) := by
  rcases hcas with rfl | rfl
  · simp only [putMutableTail, hseq, hv]
    rw [if_neg (by simp)]
    rw [if_neg (by simp; omega)]
    rw [if_pos (by simp [heq, hvne])]
  · simp only [putMutableTail, hseq, hv]
    rw [if_neg (by simp)]
    rw [if_neg (by simp; omega)]
    rw [if_pos (by simp [heq, hvne])]

theorem getData_of_lookup (store : Store) (target : List Nat) (d : Datum)
    (h : lookupStore store (buffToHex target) = some d) :
    getData store target = ⟨some d.v, d.k, d.seq, d.sig⟩ := by
  rw [getData, h]

theorem getData_of_absent (store : Store) (target : List Nat)
    (h : lookupStore store (buffToHex target) = none) :
    getData store target = ⟨none, none, none, none⟩ := by
  rw [getData, h]

/-- C1: for an incoming mutable `put` with a valid token and valid
signature, against a datum already stored at the derived target: a
present `cas` different from the stored `seq` answers 301; otherwise a
stored `seq` greater than the query's answers 302; otherwise an equal
`seq` with a different encoded `v` answers 302 — and in each error case
the data store is returned unchanged. -/
theorem claim_C1_put_error_cases (verify : List Nat → List Nat → List Nat → Bool)
    (H : List Nat → List Nat) (myId : List Nat) (st : Secrets) (sender : Contact)
    (now : Nat) (store : Store) (tok : List Nat) (v : Bencode)
    (k g : List Nat) (s : Int) (salt : Option (List Nat)) (cas : Option Int)
    (d : Datum) (sseq : Int)
    (htok : tok = queryToken H st sender ∨ tok = queryOldToken H st sender)
    (hv : bencTruthy v = true) (hlen : (encode v).length ≤ utMaxV)
    (hs : s ≠ 0) (hk : k.length = utKeyLen) (hg : g.length = utSigLen)
    (hverify : verify g (packSeqSalt s v salt) k = true)
    (hsalt : ∀ sl ∈ salt, sl.length ≤ utSaltLen)
    (hstore : lookupStore store (buffToHex (mutableTargetOf H k salt)) = some d)
    (hdseq : d.seq = some sseq) :
    (∀ c, cas = some c → sseq ≠ c →
      putQuery verify H myId st sender now store
        ⟨some tok, some v, some k, some s, some g, salt, cas⟩ =
        (.err 301 "CAS mismatch", store)) ∧
    ((cas = none ∨ cas = some sseq) → s < sseq →
      putQuery verify H myId st sender now store
        ⟨some tok, some v, some k, some s, some g, salt, cas⟩ =
        (.err 302 "Sequence number too small", store)) ∧
    ((cas = none ∨ cas = some sseq) → sseq = s → encode d.v ≠ encode v →
      putQuery verify H myId st sender now store
        ⟨some tok, some v, some k, some s, some g, salt, cas⟩ =
        (.err 302 "Sequence number too small", store)) := by
  have hred := putQuery_mutable verify H myId st sender now store tok v k g s salt cas
    htok hv hlen hs hk hg hverify hsalt
  have hview := getData_of_lookup store (mutableTargetOf H k salt) d hstore
  refine ⟨?_, ?_, ?_⟩
  · intro c hc hne
    subst hc
    rw [hred]
    refine putMutableTail_cas _ _ _ _ _ _ _ _ _ ?_
    rw [hview]
    simp [hdseq]
    omega
  · intro hcas hgt
    rw [hred]
    refine putMutableTail_seqGt _ _ _ _ _ _ _ _ _ sseq ?_ hcas hgt
    rw [hview, hdseq]
  · intro hcas heq hvne
    rw [hred]
    refine putMutableTail_seqEq _ _ _ _ _ _ _ _ _ sseq d.v ?_ ?_ hcas heq hvne
    · rw [hview, hdseq]
    · rw [hview]

/-- Witness for C1: concrete store holding `seq = 9`, query with
`cas = 4` — error 301 and an unchanged store. -/
theorem claim_C1_put_error_cases_witness :
    putQuery (fun _ _ _ => true) (fun l => l) [0] ⟨[1], [2]⟩ ⟨[3], [4], 0⟩ 100
      [(buffToHex (List.replicate 32 5),
        ⟨.int 5, some (List.replicate 32 5), some 9, some (List.replicate 64 6), 50⟩)]
      ⟨some (queryToken (fun l => l) ⟨[1], [2]⟩ ⟨[3], [4], 0⟩), some (.int 7),
        some (List.replicate 32 5), some 9, some (List.replicate 64 6), none, some 4⟩ =
      (.err 301 "CAS mismatch",
        [(buffToHex (List.replicate 32 5),
          ⟨.int 5, some (List.replicate 32 5), some 9, some (List.replicate 64 6), 50⟩)]) := by
  refine (claim_C1_put_error_cases (fun _ _ _ => true) (fun l => l) [0] ⟨[1], [2]⟩
    ⟨[3], [4], 0⟩ 100 _ _ (.int 7) (List.replicate 32 5) (List.replicate 64 6) 9 none
    (some 4) ⟨.int 5, some (List.replicate 32 5), some 9, some (List.replicate 64 6), 50⟩ 9
    (Or.inl rfl) rfl (by decide) (by decide) (by decide) (by decide) rfl
    (by simp) ?_ rfl).1 4 rfl (by decide)
  rfl

/-- C10: a mutable `put` with valid token and signature that carries a
`cas` field, when nothing is stored at the derived target, answers
error 301 and stores nothing, because `ds.getData` returns a truthy
empty object whose `seq` is `undefined` for absent targets. -/
theorem claim_C10_cas_on_absent (verify : List Nat → List Nat → List Nat → Bool)
    (H : List Nat → List Nat) (myId : List Nat) (st : Secrets) (sender : Contact)
    (now : Nat) (store : Store) (tok : List Nat) (v : Bencode)
    (k g : List Nat) (s : Int) (salt : Option (List Nat)) (c : Int)
    (htok : tok = queryToken H st sender ∨ tok = queryOldToken H st sender)
    (hv : bencTruthy v = true) (hlen : (encode v).length ≤ utMaxV)
    (hs : s ≠ 0) (hk : k.length = utKeyLen) (hg : g.length = utSigLen)
    (hverify : verify g (packSeqSalt s v salt) k = true)
    (hsalt : ∀ sl ∈ salt, sl.length ≤ utSaltLen)
    (hstore : lookupStore store (buffToHex (mutableTargetOf H k salt)) = none) :
    putQuery verify H myId st sender now store
      ⟨some tok, some v, some k, some s, some g, salt, some c⟩ =
      (.err 301 "CAS mismatch", store) := by
  rw [putQuery_mutable verify H myId st sender now store tok v k g s salt (some c)
    htok hv hlen hs hk hg hverify hsalt]
  refine putMutableTail_cas _ _ _ _ _ _ _ _ _ ?_
  rw [getData_of_absent store _ hstore]
  simp

/-- Witness for C10: empty store, `cas = 4` — error 301. -/
theorem claim_C10_cas_on_absent_witness :
    putQuery (fun _ _ _ => true) (fun l => l) [0] ⟨[1], [2]⟩ ⟨[3], [4], 0⟩ 100 []
      ⟨some (queryToken (fun l => l) ⟨[1], [2]⟩ ⟨[3], [4], 0⟩), some (.int 7),
        some (List.replicate 32 5), some 9, some (List.replicate 64 6), none, some 4⟩ =
      (.err 301 "CAS mismatch", []) := by
  exact claim_C10_cas_on_absent (fun _ _ _ => true) (fun l => l) [0] ⟨[1], [2]⟩
    ⟨[3], [4], 0⟩ 100 [] _ (.int 7) (List.replicate 32 5) (List.replicate 64 6) 9 none 4
    (Or.inl rfl) rfl (by decide) (by decide) (by decide) (by decide) rfl (by simp) rfl

/-! ## Routing-table groundwork (C3, C4, C9) -/

/-- Full characterisation of the bit scan: the result is the first
position in `[x, x + f)` where the bits differ, or `x + f` when none
does. -/
theorem firstDiffAux_spec (id tid : List Nat) :
    ∀ f x, x ≤ firstDiffAux id tid f x ∧ firstDiffAux id tid f x ≤ x + f ∧
      (∀ y, x ≤ y → y < firstDiffAux id tid f x → getBit id y = getBit tid y) ∧
      (firstDiffAux id tid f x < x + f →
        getBit id (firstDiffAux id tid f x) ≠ getBit tid (firstDiffAux id tid f x)) := by
  intro f
  induction f with
  | zero =>
    intro x
    rw [firstDiffAux]
    exact ⟨le_refl x, by omega, fun y h1 h2 => absurd h1 (by omega), fun h => absurd h (by omega)⟩
  | succ f ih =>
    intro x
    rw [firstDiffAux]
    by_cases hx : getBit id x ≠ getBit tid x
    · rw [if_pos hx]
      exact ⟨le_refl x, by omega, fun y h1 h2 => absurd h1 (by omega), fun _ => hx⟩
    · rw [if_neg hx]
      push_neg at hx
      obtain ⟨h1, h2, h3, h4⟩ := ih (x + 1)
      refine ⟨by omega, by omega, ?_, by
        intro h
        exact h4 (by omega)⟩
      intro y hy1 hy2
      rcases Nat.eq_or_lt_of_le hy1 with rfl | hy1'
      · exact hx
      · exact h3 y (by omega) hy2

theorem firstDiffBit_ge (id tid : List Nat) (x : Nat) (h : x < firstDiffBit id tid) :
    getBit id x = getBit tid x := by
  have := (firstDiffAux_spec id tid (id.length * 8) 0).2.2.1
  exact this x (by omega) h

theorem firstDiffBit_le (id tid : List Nat) : firstDiffBit id tid ≤ id.length * 8 := by
  have := (firstDiffAux_spec id tid (id.length * 8) 0).2.1
  simpa [firstDiffBit] using this

theorem firstDiffBit_ne (id tid : List Nat) (h : firstDiffBit id tid < id.length * 8) :
    getBit id (firstDiffBit id tid) ≠ getBit tid (firstDiffBit id tid) := by
  have := (firstDiffAux_spec id tid (id.length * 8) 0).2.2.2
  exact this (by simpa [firstDiffBit] using h)

theorem getD_set_self {α : Type} (l : List α) (i : Nat) (a d : α) (h : i < l.length) :
    (l.set i a).getD i d = a := by
  induction l generalizing i with
  | nil => simp at h
  | cons x xs ih =>
    cases i with
    | zero => rfl
    | succ i =>
      simp only [List.set_cons_succ, List.getD_cons_succ]
      exact ih i (by simpa using h)

theorem getD_set_ne {α : Type} (l : List α) (i j : Nat) (a d : α) (h : i ≠ j) :
    (l.set i a).getD j d = l.getD j d := by
  induction l generalizing i j with
  | nil => simp
  | cons x xs ih =>
    cases i with
    | zero =>
      cases j with
      | zero => exact absurd rfl h
      | succ j => rfl
    | succ i =>
      cases j with
      | zero => rfl
      | succ j =>
        simp only [List.set_cons_succ, List.getD_cons_succ]
        exact ih i j (by omega)

theorem getD_append_left {α : Type} (l l' : List α) (j : Nat) (d : α) (h : j < l.length) :
    (l ++ l').getD j d = l.getD j d := by
  induction l generalizing j with
  | nil => simp at h
  | cons x xs ih =>
    cases j with
    | zero => rfl
    | succ j =>
      simp only [List.cons_append, List.getD_cons_succ]
      exact ih j (by simpa using h)

theorem getD_append_right_self {α : Type} (l : List α) (a d : α) :
    (l ++ [a]).getD l.length d = a := by
  induction l with
  | nil => rfl
  | cons x xs ih => simpa using ih

theorem setBucket_fields (t : Table) (y z : Nat) (l : List Contact) :
    (setBucket t y z l).id = t.id ∧ (setBucket t y z l).isTemp = t.isTemp ∧
    (setBucket t y z l).maxContacts = t.maxContacts ∧
    (setBucket t y z l).numContacts = t.numContacts ∧
    (setBucket t y z l).tree.length = t.tree.length := by
  refine ⟨rfl, rfl, rfl, rfl, ?_⟩
  simp [setBucket]

theorem setBucket_getD_self (t : Table) (y z : Nat) (l : List Contact)
    (h : y < t.tree.length) :
    (setBucket t y z l).tree.getD y ([], []) =
      (if z = 0 then (l, (t.tree.getD y ([], [])).2)
       else ((t.tree.getD y ([], [])).1, l)) := by
  rw [setBucket]
  exact getD_set_self _ _ _ _ h

theorem setBucket_getD_ne (t : Table) (y z : Nat) (l : List Contact) (j : Nat)
    (h : y ≠ j) :
    (setBucket t y z l).tree.getD j ([], []) = t.tree.getD j ([], []) := by
  rw [setBucket]
  exact getD_set_ne _ _ _ _ _ h

theorem redistribute_spec (cs : List Contact) :
    ∀ (t : Table) (L : Nat), t.tree.length = L + 1 →
      (∀ c ∈ cs, L ≤ firstDiffBit c.id t.id) →
      (redistribute t cs).id = t.id ∧
      (redistribute t cs).isTemp = t.isTemp ∧
      (redistribute t cs).maxContacts = t.maxContacts ∧
      (redistribute t cs).tree.length = L + 1 ∧
      (∀ j, j ≠ L → (redistribute t cs).tree.getD j ([], []) = t.tree.getD j ([], [])) ∧
      (redistribute t cs).tree.getD L ([], []) =
        ((t.tree.getD L ([], [])).1 ++
            cs.filter (fun c => decide (firstDiffBit c.id t.id = L)),
         (t.tree.getD L ([], [])).2 ++
            cs.filter (fun c => decide (L < firstDiffBit c.id t.id))) := by
  induction cs with
  | nil =>
    intro t L hlen _
    simp [redistribute, hlen]
  | cons c cs' ih =>
    intro t L hlen hfd
    have hfdc : L ≤ firstDiffBit c.id t.id := hfd c (by simp)
    have htip : t.tree.length - 1 = L := by omega
    -- the push step targets node L, element 0 when the first differing
    -- bit is exactly L and element 1 when it is beyond L
    have hfc : findContact t c.id =
        (L, if firstDiffBit c.id t.id = L then 0 else 1,
          (bucket t L (if firstDiffBit c.id t.id = L then 0 else 1)).findIdx
            (fun c' => c'.id == c.id)) := by
      rw [findContact, htip]
      by_cases hx : firstDiffBit c.id t.id = L
      · rw [if_pos hx]
        simp only [hx, if_pos (le_refl L)]
      · rw [if_neg hx]
        rw [if_neg (by omega), if_neg (by omega)]
    have hpush : pushToBucket t c =
        setBucket t L (if firstDiffBit c.id t.id = L then 0 else 1)
          (bucket t L (if firstDiffBit c.id t.id = L then 0 else 1) ++ [c]) := by
      rw [pushToBucket, hfc]
    have hfields := setBucket_fields t L (if firstDiffBit c.id t.id = L then 0 else 1)
      (bucket t L (if firstDiffBit c.id t.id = L then 0 else 1) ++ [c])
    have hlen' : (pushToBucket t c).tree.length = L + 1 := by
      rw [hpush]
      rw [hfields.2.2.2.2, hlen]
    have hid' : (pushToBucket t c).id = t.id := by
      rw [hpush]
      exact hfields.1
    obtain ⟨ih1, ih2, ih3, ih4, ih5, ih6⟩ := ih (pushToBucket t c) L hlen'
      (fun c' hc' => by rw [hid']; exact hfd c' (by simp [hc']))
    rw [redistribute]
    have hLlt : L < t.tree.length := by omega
    refine ⟨by rw [ih1, hid'], by rw [ih2, hpush]; exact hfields.2.1,
      by rw [ih3, hpush]; exact hfields.2.2.1, ih4, ?_, ?_⟩
    · intro j hj
      rw [ih5 j hj, hpush, setBucket_getD_ne _ _ _ _ _ (by omega)]
    · rw [ih6, hid']
      rw [hpush, setBucket_getD_self _ _ _ _ hLlt]
      by_cases hx : firstDiffBit c.id t.id = L
      · rw [if_pos hx, if_pos (by simp [hx])]
        simp only [List.filter_cons]
        rw [if_pos (by simpa using hx), if_neg (by simp; omega)]
        simp [bucket]
      · rw [if_neg hx, if_neg (by simp : ¬ (1 : Nat) = 0)]
        simp only [List.filter_cons]
        rw [if_neg (by simpa using hx), if_pos (by simp; omega)]
        simp [bucket]

theorem TableInv_numContacts (t : Table) (n : Nat) :
    TableInv { t with numContacts := n } ↔ TableInv t := Iff.rfl

theorem tree_length_pos (t : Table) (hinv : TableInv t) : 1 ≤ t.tree.length := by
  have := hinv.1
  cases h : t.tree with
  | nil => exact absurd h this
  | cons a l => simp [h]

/-- Replacing an element-0 bucket with contents whose first differing bit
is exactly the bucket position keeps the invariant, provided the new
bucket respects the size bound. -/
theorem TableInv_setBucket_E0 (t : Table) (y : Nat) (l' : List Contact)
    (hinv : TableInv t) (hy : y < t.tree.length)
    (hbit : ∀ c ∈ l', firstDiffBit c.id t.id = y)
    (hlen : l'.length ≤ t.maxContacts - 1 + t.tree.length) :
    TableInv (setBucket t y 0 l') := by
  obtain ⟨hne, hE1e, hE0, hE1, hsz⟩ := hinv
  have hfx := setBucket_fields t y 0 l'
  have hself := setBucket_getD_self t y 0 l' hy
  rw [if_pos rfl] at hself
  refine ⟨?_, ?_, ?_, ?_, ?_⟩
  · intro h
    rw [← List.length_eq_zero] at h
    rw [hfx.2.2.2.2] at h
    omega
  · intro j hj
    rw [hfx.2.2.2.2] at hj
    by_cases hjy : y = j
    · subst hjy
      rw [hself]
      exact hE1e y hj
    · rw [setBucket_getD_ne _ _ _ _ _ hjy]
      exact hE1e j hj
  · intro j c hc
    rw [hfx.1]
    by_cases hjy : y = j
    · subst hjy
      rw [hself] at hc
      exact hbit c hc
    · rw [setBucket_getD_ne _ _ _ _ _ hjy] at hc
      exact hE0 j c hc
  · intro j c hc
    rw [hfx.1]
    by_cases hjy : y = j
    · subst hjy
      rw [hself] at hc
      exact hE1 y c hc
    · rw [setBucket_getD_ne _ _ _ _ _ hjy] at hc
      exact hE1 j c hc
  · intro j
    rw [hfx.2.2.1, hfx.2.2.2.2]
    by_cases hjy : y = j
    · subst hjy
      rw [hself]
      exact ⟨hlen, (hsz y).2⟩
    · rw [setBucket_getD_ne _ _ _ _ _ hjy]
      exact hsz j

/-- Replacing the tip's element-1 bucket with contents whose first
differing bit lies beyond the tip keeps the invariant, under the size
bound. -/
theorem TableInv_setBucket_E1tip (t : Table) (l' : List Contact)
    (hinv : TableInv t)
    (hbit : ∀ c ∈ l', t.tree.length - 1 < firstDiffBit c.id t.id)
    (hlen : l'.length ≤ t.maxContacts - 1 + t.tree.length) :
    TableInv (setBucket t (t.tree.length - 1) 1 l') := by
  obtain ⟨hne, hE1e, hE0, hE1, hsz⟩ := hinv
  have hy : t.tree.length - 1 < t.tree.length := by
    have := tree_length_pos t ⟨hne, hE1e, hE0, hE1, hsz⟩
    omega
  have hfx := setBucket_fields t (t.tree.length - 1) 1 l'
  have hself := setBucket_getD_self t (t.tree.length - 1) 1 l' hy
  rw [if_neg (by simp : ¬ (1 : Nat) = 0)] at hself
  refine ⟨?_, ?_, ?_, ?_, ?_⟩
  · intro h
    rw [← List.length_eq_zero] at h
    rw [hfx.2.2.2.2] at h
    omega
  · intro j hj
    rw [hfx.2.2.2.2] at hj
    have hjy : ¬ (t.tree.length - 1 = j) := by omega
    rw [setBucket_getD_ne _ _ _ _ _ hjy]
    exact hE1e j hj
  · intro j c hc
    rw [hfx.1]
    by_cases hjy : t.tree.length - 1 = j
    · subst hjy
      rw [hself] at hc
      exact hE0 _ c hc
    · rw [setBucket_getD_ne _ _ _ _ _ hjy] at hc
      exact hE0 j c hc
  · intro j c hc
    rw [hfx.1]
    by_cases hjy : t.tree.length - 1 = j
    · subst hjy
      rw [hself] at hc
      exact hbit c hc
    · rw [setBucket_getD_ne _ _ _ _ _ hjy] at hc
      exact hE1 j c hc
  · intro j
    rw [hfx.2.2.1, hfx.2.2.2.2]
    by_cases hjy : t.tree.length - 1 = j
    · subst hjy
      rw [hself]
      exact ⟨(hsz _).1, hlen⟩
    · rw [setBucket_getD_ne _ _ _ _ _ hjy]
      exact hsz j

/-- The split branch of `addContact` preserves the invariant: the old
tip's element-1 contacts plus the new one are redistributed into the new
tip node and the old tip's element-1 array is emptied. -/
theorem TableInv_split (t : Table) (c : Contact) (hinv : TableInv t)
    (hx : t.tree.length - 1 < firstDiffBit c.id t.id) :
    TableInv (setBucket
      (redistribute
        { { setBucket t (t.tree.length - 1) 1 (bucket t (t.tree.length - 1) 1 ++ [c])
            with numContacts := t.numContacts + 1 } with
          tree := { setBucket t (t.tree.length - 1) 1 (bucket t (t.tree.length - 1) 1 ++ [c])
            with numContacts := t.numContacts + 1 }.tree ++ [([], [])] }
        (bucket t (t.tree.length - 1) 1 ++ [c]))
      (t.tree.length - 1) 1 []) := by
  obtain ⟨hne, hE1e, hE0, hE1, hsz⟩ := hinv
  have hlen1 : 1 ≤ t.tree.length := tree_length_pos t ⟨hne, hE1e, hE0, hE1, hsz⟩
  set len := t.tree.length with hlendef
  set tip := len - 1 with htipdef
  set full := bucket t tip 1 ++ [c] with hfulldef
  set S := setBucket t tip 1 full with hSdef
  have hSfx := setBucket_fields t tip 1 full
  have hStip : S.tree.getD tip ([], []) = ((t.tree.getD tip ([], [])).1, full) := by
    rw [hSdef, setBucket_getD_self t tip 1 full (by omega)]
    rw [if_neg (by simp : ¬ (1 : Nat) = 0)]
  have hSne : ∀ j, tip ≠ j → S.tree.getD j ([], []) = t.tree.getD j ([], []) :=
    fun j hj => setBucket_getD_ne t tip 1 full j hj
  set t2 : Table := { { S with numContacts := t.numContacts + 1 } with
    tree := { S with numContacts := t.numContacts + 1 }.tree ++ [([], [])] } with ht2def
  have ht2tree : t2.tree = S.tree ++ [([], [])] := rfl
  have ht2id : t2.id = t.id := hSfx.1
  have ht2max : t2.maxContacts = t.maxContacts := hSfx.2.2.1
  have ht2isTemp : t2.isTemp = t.isTemp := hSfx.2.1
  have ht2len : t2.tree.length = len + 1 := by
    rw [ht2tree, List.length_append, hSfx.2.2.2.2]
    simp
  have ht2getD_lt : ∀ j, j < len → t2.tree.getD j ([], []) = S.tree.getD j ([], []) := by
    intro j hj
    rw [ht2tree]
    exact getD_append_left _ _ j _ (by rw [hSfx.2.2.2.2]; omega)
  have ht2getD_len : t2.tree.getD len ([], []) = ([], []) := by
    rw [ht2tree]
    have : len = S.tree.length := by rw [hSfx.2.2.2.2]
    rw [this]
    exact getD_append_right_self _ _ _
  have hbucket_sz : (bucket t tip 1).length ≤ t.maxContacts - 1 + len := by
    have := (hsz tip).2
    simpa [bucket] using this
  have hmember : ∀ c' ∈ full, len ≤ firstDiffBit c'.id t.id := by
    intro c' hc'
    rcases List.mem_append.1 hc' with h | h
    · have := hE1 tip c' (by simpa [bucket] using h)
      omega
    · rcases List.mem_singleton.1 h with rfl
      omega
  obtain ⟨r1, r2, r3, r4, r5, r6⟩ := redistribute_spec full t2 len ht2len
    (by rw [ht2id]; exact hmember)
  set t3 := redistribute t2 full with ht3def
  have ht3id : t3.id = t.id := by rw [r1, ht2id]
  have htipne : tip ≠ len := by omega
  have ht3tip : t3.tree.getD tip ([], []) = ((t.tree.getD tip ([], [])).1, full) := by
    rw [r5 tip htipne, ht2getD_lt tip (by omega), hStip]
  have ht3len_node : t3.tree.getD len ([], []) =
      (full.filter (fun c' => decide (firstDiffBit c'.id t.id = len)),
       full.filter (fun c' => decide (len < firstDiffBit c'.id t.id))) := by
    rw [r6, ht2getD_len, ht2id]
    simp
  have ht3other : ∀ j, j ≠ tip → j ≠ len → t3.tree.getD j ([], []) = t.tree.getD j ([], []) := by
    intro j hjtip hjlen
    rw [r5 j hjlen]
    by_cases hj : j < len
    · rw [ht2getD_lt j hj, hSne j (fun h => hjtip h.symm)]
    · have h1 : t2.tree.length ≤ j := by omega
      have h2 : t.tree.length ≤ j := by omega
      rw [List.getD_eq_default _ _ h1, List.getD_eq_default _ _ h2]
  -- the final table
  have hfinfx := setBucket_fields t3 tip 1 ([] : List Contact)
  have hfinlen : (setBucket t3 tip 1 []).tree.length = len + 1 := by
    rw [hfinfx.2.2.2.2, r4]
  have hfintip : (setBucket t3 tip 1 []).tree.getD tip ([], []) =
      ((t.tree.getD tip ([], [])).1, []) := by
    rw [setBucket_getD_self t3 tip 1 [] (by rw [r4]; omega)]
    rw [if_neg (by simp : ¬ (1 : Nat) = 0), ht3tip]
  have hfinne : ∀ j, tip ≠ j →
      (setBucket t3 tip 1 []).tree.getD j ([], []) = t3.tree.getD j ([], []) :=
    fun j hj => setBucket_getD_ne t3 tip 1 [] j hj
  have hfinid : (setBucket t3 tip 1 []).id = t.id := by rw [hfinfx.1, ht3id]
  have hfinmax : (setBucket t3 tip 1 []).maxContacts = t.maxContacts := by
    rw [hfinfx.2.2.1, r3, ht2max]
  refine ⟨?_, ?_, ?_, ?_, ?_⟩
  · intro h
    rw [← List.length_eq_zero, hfinlen] at h
    omega
  · intro j hj
    rw [hfinlen] at hj
    by_cases hjtip : tip = j
    · subst hjtip
      rw [hfintip]
    · rw [hfinne j hjtip]
      by_cases hjlen : j = len
      · omega
      · rw [ht3other j (fun h => hjtip h.symm) hjlen]
        exact hE1e j (by omega)
  · intro j c' hc'
    rw [hfinid]
    by_cases hjtip : tip = j
    · subst hjtip
      rw [hfintip] at hc'
      exact hE0 tip c' hc'
    · rw [hfinne j hjtip] at hc'
      by_cases hjlen : j = len
      · subst hjlen
        rw [ht3len_node] at hc'
        have := List.of_mem_filter hc'
        simpa using this
      · rw [ht3other j (fun h => hjtip h.symm) hjlen] at hc'
        exact hE0 j c' hc'
  · intro j c' hc'
    rw [hfinid]
    by_cases hjtip : tip = j
    · subst hjtip
      rw [hfintip] at hc'
      simp at hc'
    · rw [hfinne j hjtip] at hc'
      by_cases hjlen : j = len
      · subst hjlen
        rw [ht3len_node] at hc'
        have := List.of_mem_filter hc'
        simpa using this
      · rw [ht3other j (fun h => hjtip h.symm) hjlen] at hc'
        exact hE1 j c' hc'
  · intro j
    rw [hfinmax, hfinlen]
    have hfull_len : full.length ≤ t.maxContacts - 1 + len + 1 := by
      rw [hfulldef, List.length_append]
      simp only [List.length_singleton]
      omega
    by_cases hjtip : tip = j
    · subst hjtip
      rw [hfintip]
      have := (hsz tip).1
      constructor
      · simp only []
        omega
      · simp
    · rw [hfinne j hjtip]
      by_cases hjlen : j = len
      · subst hjlen
        rw [ht3len_node]
        constructor
        · have := List.length_filter_le (fun c' => decide (firstDiffBit c'.id t.id = len)) full
          simp only []
          omega
        · have := List.length_filter_le (fun c' => decide (len < firstDiffBit c'.id t.id)) full
          simp only []
          omega
      · rw [ht3other j (fun h => hjtip h.symm) hjlen]
        have := hsz j
        constructor
        · omega
        · omega

theorem addContact_inv (t : Table) (c0 : Contact) (now : Nat) (hinv : TableInv t) :
    TableInv (addContact t c0 now) := by
  have hlen1 : 1 ≤ t.tree.length := tree_length_pos t hinv
  obtain ⟨hne, hE1e, hE0, hE1, hsz⟩ := hinv
  rw [addContact]
  split
  · exact ⟨hne, hE1e, hE0, hE1, hsz⟩
  · set c : Contact := if t.isTemp = true then c0 else { c0 with time := now } with hcdef
    set x := firstDiffBit c.id t.id with hxdef
    set tip := t.tree.length - 1 with htipdef
    by_cases hx1 : x ≤ tip
    · have hfc : findContact t c.id =
          (x, 0, (bucket t x 0).findIdx (fun c' => c'.id == c.id)) := by
        rw [findContact]
        simp only [← hxdef, ← htipdef, if_pos hx1]
      simp only [hfc]
      have hbE0 : bucket t x 0 = (t.tree.getD x ([], [])).1 := by simp [bucket]
      split
      · refine TableInv_setBucket_E0 t x _ ⟨hne, hE1e, hE0, hE1, hsz⟩ (by omega) ?_ ?_
        · intro c' hc'
          rcases List.mem_or_eq_of_mem_set hc' with h | rfl
          · exact hE0 x c' (by rwa [hbE0] at h)
          · exact hxdef.symm
        · rw [List.length_set, hbE0]
          exact (hsz x).1
      · split
        · rename_i hroom
          rw [TableInv_numContacts]
          refine TableInv_setBucket_E0 t x _ ⟨hne, hE1e, hE0, hE1, hsz⟩ (by omega) ?_ ?_
          · intro c' hc'
            rcases List.mem_append.1 hc' with h | h
            · exact hE0 x c' (by rwa [hbE0] at h)
            · rcases List.mem_singleton.1 h with rfl
              exact hxdef.symm
          · rw [List.length_append, List.length_singleton, hbE0]
            rw [hbE0] at hroom
            omega
        · rw [if_pos trivial]
          exact ⟨hne, hE1e, hE0, hE1, hsz⟩
    · have hfc : findContact t c.id =
          (tip, 1, (bucket t tip 1).findIdx (fun c' => c'.id == c.id)) := by
        rw [findContact]
        simp only [← hxdef, ← htipdef, if_neg hx1]
      simp only [hfc]
      have hbE1 : bucket t tip 1 = (t.tree.getD tip ([], [])).2 := by
        simp [bucket]
      split
      · refine TableInv_setBucket_E1tip t _ ⟨hne, hE1e, hE0, hE1, hsz⟩ ?_ ?_
        · intro c' hc'
          rcases List.mem_or_eq_of_mem_set hc' with h | rfl
          · exact hE1 tip c' (by rwa [hbE1] at h)
          · omega
        · rw [List.length_set, hbE1]
          exact (hsz tip).2
      · split
        · rename_i hroom
          rw [TableInv_numContacts]
          refine TableInv_setBucket_E1tip t _ ⟨hne, hE1e, hE0, hE1, hsz⟩ ?_ ?_
          · intro c' hc'
            rcases List.mem_append.1 hc' with h | h
            · exact hE1 tip c' (by rwa [hbE1] at h)
            · rcases List.mem_singleton.1 h with rfl
              omega
          · rw [List.length_append, List.length_singleton, hbE1]
            rw [hbE1] at hroom
            omega
        · rw [if_neg (by simp : ¬ (1 : Nat) = 0)]
          exact TableInv_split t c ⟨hne, hE1e, hE0, hE1, hsz⟩ (by omega)

theorem TableAllIds_setBucket (Q : List Nat → Prop) (t : Table) (y z : Nat)
    (l : List Contact) (h : TableAllIds Q t) (hl : ∀ c ∈ l, Q c.id) :
    TableAllIds Q (setBucket t y z l) := by
  intro j
  by_cases hjy : y = j
  · subst hjy
    by_cases hy : y < t.tree.length
    · rw [setBucket_getD_self t y z l hy]
      constructor
      · intro c hc
        split at hc
        · exact hl c hc
        · exact (h y).1 c hc
      · intro c hc
        split at hc
        · exact (h y).2 c hc
        · exact hl c hc
    · have h1 : (setBucket t y z l).tree.getD y ([], []) = ([], []) := by
        rw [setBucket]
        apply List.getD_eq_default
        simp only [List.length_set]
        omega
      rw [h1]
      exact ⟨by simp, by simp⟩
  · rw [setBucket_getD_ne t y z l j hjy]
    exact h j

theorem TableAllIds_numContacts (Q : List Nat → Prop) (t : Table) (n : Nat) :
    TableAllIds Q { t with numContacts := n } ↔ TableAllIds Q t := Iff.rfl

/-- Every id stored after an `addContact` was already stored, or is the
inserted contact's id (which, in a non-temporary table, the early return
prevents from being the table's own id). -/
theorem TableAllIds_addContact (Q : List Nat → Prop) (t : Table) (c0 : Contact)
    (now : Nat) (hinv : TableInv t) (h : TableAllIds Q t)
    (hc : ¬(t.isTemp = false ∧ c0.id = t.id) → Q c0.id) :
    TableAllIds Q (addContact t c0 now) := by
  have hlen1 : 1 ≤ t.tree.length := tree_length_pos t hinv
  obtain ⟨hne, hE1e, hE0, hE1, hsz⟩ := hinv
  rw [addContact]
  split
  · exact h
  · rename_i hearly
    have hQc : ∀ now', Q (Contact.mk c0.id c0.loc now').id := fun _ => hc hearly
    set c : Contact := if t.isTemp = true then c0 else { c0 with time := now } with hcdef
    have hQc' : Q c.id := by
      rw [hcdef]
      split
      · exact hc hearly
      · exact hQc now
    set x := firstDiffBit c.id t.id with hxdef
    set tip := t.tree.length - 1 with htipdef
    by_cases hx1 : x ≤ tip
    · have hfc : findContact t c.id =
          (x, 0, (bucket t x 0).findIdx (fun c' => c'.id == c.id)) := by
        rw [findContact]
        simp only [← hxdef, ← htipdef, if_pos hx1]
      simp only [hfc]
      have hbE0 : bucket t x 0 = (t.tree.getD x ([], [])).1 := by simp [bucket]
      split
      · refine TableAllIds_setBucket Q t x 0 _ h ?_
        intro c' hc'
        rcases List.mem_or_eq_of_mem_set hc' with hm | rfl
        · exact (h x).1 c' (by rwa [hbE0] at hm)
        · exact hQc'
      · split
        · rw [TableAllIds_numContacts]
          refine TableAllIds_setBucket Q t x 0 _ h ?_
          intro c' hc'
          rcases List.mem_append.1 hc' with hm | hm
          · exact (h x).1 c' (by rwa [hbE0] at hm)
          · rcases List.mem_singleton.1 hm with rfl
            exact hQc'
        · rw [if_pos trivial]
          exact h
    · have hfc : findContact t c.id =
          (tip, 1, (bucket t tip 1).findIdx (fun c' => c'.id == c.id)) := by
        rw [findContact]
        simp only [← hxdef, ← htipdef, if_neg hx1]
      simp only [hfc]
      have hbE1 : bucket t tip 1 = (t.tree.getD tip ([], [])).2 := by simp [bucket]
      have hfullQ : ∀ c' ∈ bucket t tip 1 ++ [c], Q c'.id := by
        intro c' hc'
        rcases List.mem_append.1 hc' with hm | hm
        · exact (h tip).2 c' (by rwa [hbE1] at hm)
        · rcases List.mem_singleton.1 hm with rfl
          exact hQc'
      split
      · refine TableAllIds_setBucket Q t tip 1 _ h ?_
        intro c' hc'
        rcases List.mem_or_eq_of_mem_set hc' with hm | rfl
        · exact (h tip).2 c' (by rwa [hbE1] at hm)
        · exact hQc'
      · split
        · rw [TableAllIds_numContacts]
          exact TableAllIds_setBucket Q t tip 1 _ h hfullQ
        · rw [if_neg (by simp : ¬ (1 : Nat) = 0)]
          -- split branch: redistribute only moves contacts of `full`
          set full := bucket t tip 1 ++ [c] with hfulldef
          set S := setBucket t tip 1 full with hSdef
          have hSall : TableAllIds Q S := TableAllIds_setBucket Q t tip 1 full h hfullQ
          have hSfx := setBucket_fields t tip 1 full
          set t2 : Table := { { S with numContacts := t.numContacts + 1 } with
            tree := { S with numContacts := t.numContacts + 1 }.tree ++ [([], [])] } with ht2def
          have ht2all : TableAllIds Q t2 := by
            intro j
            show (∀ c' ∈ ((S.tree ++ [([], [])]).getD j ([], [])).1, Q c'.id) ∧
              (∀ c' ∈ ((S.tree ++ [([], [])]).getD j ([], [])).2, Q c'.id)
            by_cases hj : j < S.tree.length
            · rw [getD_append_left _ _ j _ hj]
              exact hSall j
            · by_cases hj2 : j = S.tree.length
              · subst hj2
                rw [getD_append_right_self]
                exact ⟨by simp, by simp⟩
              · rw [List.getD_eq_default]
                · exact ⟨by simp, by simp⟩
                · simp only [List.length_append, List.length_singleton]
                  omega
          have ht2len : t2.tree.length = t.tree.length + 1 := by
            show (S.tree ++ [([], [])]).length = t.tree.length + 1
            rw [List.length_append, hSfx.2.2.2.2]
            simp
          have hmem : ∀ c' ∈ full, t.tree.length ≤ firstDiffBit c'.id t2.id := by
            intro c' hc'
            have ht2id : t2.id = t.id := hSfx.1
            rw [ht2id]
            rcases List.mem_append.1 hc' with hm | hm
            · have := hE1 tip c' (by rwa [hbE1] at hm)
              omega
            · rcases List.mem_singleton.1 hm with rfl
              omega
          obtain ⟨r1, r2, r3, r4, r5, r6⟩ := redistribute_spec full t2 t.tree.length ht2len hmem
          have ht3all : TableAllIds Q (redistribute t2 full) := by
            intro j
            by_cases hj : j = t.tree.length
            · subst hj
              rw [r6]
              constructor
              · intro c' hc'
                rcases List.mem_append.1 hc' with hm | hm
                · exact (ht2all t.tree.length).1 c' hm
                · exact hfullQ c' (List.mem_of_mem_filter hm)
              · intro c' hc'
                rcases List.mem_append.1 hc' with hm | hm
                · exact (ht2all t.tree.length).2 c' hm
                · exact hfullQ c' (List.mem_of_mem_filter hm)
            · rw [r5 j hj]
              exact ht2all j
          exact TableAllIds_setBucket Q _ tip 1 [] ht3all (by simp)

theorem redistribute_fields (cs : List Contact) : ∀ t : Table,
    (redistribute t cs).id = t.id ∧ (redistribute t cs).isTemp = t.isTemp ∧
    (redistribute t cs).maxContacts = t.maxContacts := by
  induction cs with
  | nil => exact fun t => ⟨rfl, rfl, rfl⟩
  | cons c cs' ih =>
    intro t
    rw [redistribute]
    obtain ⟨i1, i2, i3⟩ := ih (pushToBucket t c)
    exact ⟨i1, i2, i3⟩

theorem addContact_fields (t : Table) (c0 : Contact) (now : Nat) :
    (addContact t c0 now).id = t.id ∧ (addContact t c0 now).isTemp = t.isTemp ∧
    (addContact t c0 now).maxContacts = t.maxContacts := by
  rw [addContact]
  split
  · exact ⟨rfl, rfl, rfl⟩
  · set c : Contact := if t.isTemp = true then c0 else { c0 with time := now } with hcdef
    set x := firstDiffBit c.id t.id with hxdef
    set tip := t.tree.length - 1 with htipdef
    by_cases hx1 : x ≤ tip
    · have hfc : findContact t c.id =
          (x, 0, (bucket t x 0).findIdx (fun c' => c'.id == c.id)) := by
        rw [findContact]
        simp only [← hxdef, ← htipdef, if_pos hx1]
      simp only [hfc]
      split
      · exact ⟨rfl, rfl, rfl⟩
      · split
        · exact ⟨rfl, rfl, rfl⟩
        · rw [if_pos trivial]
          exact ⟨rfl, rfl, rfl⟩
    · have hfc : findContact t c.id =
          (tip, 1, (bucket t tip 1).findIdx (fun c' => c'.id == c.id)) := by
        rw [findContact]
        simp only [← hxdef, ← htipdef, if_neg hx1]
      simp only [hfc]
      split
      · exact ⟨rfl, rfl, rfl⟩
      · split
        · exact ⟨rfl, rfl, rfl⟩
        · rw [if_neg (by simp : ¬ (1 : Nat) = 0)]
          obtain ⟨i1, i2, i3⟩ := redistribute_fields (bucket t tip 1 ++ [c]) _
          exact ⟨i1, i2, i3⟩

theorem TableInv_mkTable (id : List Nat) (isTemp : Bool) (mc : Nat) :
    TableInv (mkTable id isTemp mc) := by
  refine ⟨by simp [mkTable], ?_, ?_, ?_, ?_⟩
  · intro j hj
    simp [mkTable] at hj
  · intro j c hc
    rcases j with _ | j <;> simp [mkTable] at hc
  · intro j c hc
    rcases j with _ | j <;> simp [mkTable] at hc
  · intro j
    rcases j with _ | j <;> simp [mkTable]

theorem foldAdd_inv (ops : List (Contact × Nat)) :
    ∀ t : Table, TableInv t →
      TableInv (ops.foldl (fun t p => addContact t p.1 p.2) t) := by
  induction ops with
  | nil => exact fun t h => h
  | cons p ops' ih =>
    intro t h
    exact ih _ (addContact_inv t p.1 p.2 h)

theorem foldAdd_fields (ops : List (Contact × Nat)) :
    ∀ t : Table,
      (ops.foldl (fun t p => addContact t p.1 p.2) t).id = t.id ∧
      (ops.foldl (fun t p => addContact t p.1 p.2) t).isTemp = t.isTemp ∧
      (ops.foldl (fun t p => addContact t p.1 p.2) t).maxContacts = t.maxContacts := by
  induction ops with
  | nil => exact fun t => ⟨rfl, rfl, rfl⟩
  | cons p ops' ih =>
    intro t
    obtain ⟨i1, i2, i3⟩ := ih (addContact t p.1 p.2)
    obtain ⟨a1, a2, a3⟩ := addContact_fields t p.1 p.2
    exact ⟨by rw [List.foldl_cons, i1, a1], by rw [List.foldl_cons, i2, a2],
      by rw [List.foldl_cons, i3, a3]⟩

theorem foldAdd_allIds (Q : List Nat → Prop) (ops : List (Contact × Nat)) :
    ∀ t : Table, TableInv t → TableAllIds Q t →
      (∀ p ∈ ops, Q p.1.id ∨ (t.isTemp = false ∧ p.1.id = t.id)) →
      TableAllIds Q (ops.foldl (fun t p => addContact t p.1 p.2) t) := by
  induction ops with
  | nil => exact fun t _ h _ => h
  | cons p ops' ih =>
    intro t hinv h hops
    obtain ⟨a1, a2, a3⟩ := addContact_fields t p.1 p.2
    refine ih (addContact t p.1 p.2) (addContact_inv t p.1 p.2 hinv)
      (TableAllIds_addContact Q t p.1 p.2 hinv h ?_) ?_
    · intro hne
      rcases hops p (by simp) with hq | hq
      · exact hq
      · exact absurd hq hne
    · intro q hq
      rcases hops q (by simp [hq]) with h' | h'
      · exact Or.inl h'
      · exact Or.inr (by rw [a2, a1]; exact h')

theorem getBit_eq_testBit (id : List Nat) (m r : Nat) (hr : r < 8) :
    getBit id (8 * m + r) = (id.getD m 0).testBit (7 - r) := by
  rw [getBit]
  have h1 : (8 * m + r) / 8 = m := by omega
  have h2 : (8 * m + r) % 8 = r := by omega
  rw [h1, h2, Nat.shiftLeft_eq, one_mul, Nat.and_two_pow]
  cases hb : (id.getD m 0).testBit (7 - r) <;> simp [hb]

theorem getBit_cons (x : Nat) (xs : List Nat) (i : Nat) :
    getBit (x :: xs) (i + 8) = getBit xs i := by
  rw [getBit, getBit]
  have h1 : (i + 8) / 8 = i / 8 + 1 := by omega
  have h2 : (i + 8) % 8 = i % 8 := by omega
  rw [h1, h2]
  rfl

theorem byte_eq_of_testBit_eq (a b : Nat) (ha : a < 256) (hb : b < 256)
    (h : ∀ r < 8, a.testBit (7 - r) = b.testBit (7 - r)) : a = b := by
  refine Nat.eq_of_testBit_eq (fun i => ?_)
  by_cases hi : i < 8
  · have := h (7 - i) (by omega)
    have h7 : 7 - (7 - i) = i := by omega
    rwa [h7] at this
  · have h256 : (256 : Nat) ≤ 2 ^ i := by
      have h8 : (2 : Nat) ^ 8 ≤ 2 ^ i := Nat.pow_le_pow_right (by omega) (by omega)
      simpa using h8
    rw [Nat.testBit_eq_false_of_lt (by omega), Nat.testBit_eq_false_of_lt (by omega)]

theorem id_eq_of_bits_eq (a : List Nat) : ∀ b : List Nat, a.length = b.length →
    (∀ x ∈ a, x < 256) → (∀ x ∈ b, x < 256) →
    (∀ i, i < 8 * a.length → getBit a i = getBit b i) → a = b := by
  induction a with
  | nil =>
    intro b hlen _ _ _
    cases b with
    | nil => rfl
    | cons y ys => simp at hlen
  | cons x xs ih =>
    intro b hlen ha hb hbits
    cases b with
    | nil => simp at hlen
    | cons y ys =>
      have hhead : x = y := by
        refine byte_eq_of_testBit_eq x y (ha x (by simp)) (hb y (by simp)) ?_
        intro r hr
        have := hbits r (by simp; omega)
        rw [show r = 8 * 0 + r by omega] at this
        rw [getBit_eq_testBit _ 0 r hr, getBit_eq_testBit _ 0 r hr] at this
        simpa using this
      subst hhead
      have htail : xs = ys := by
        refine ih ys (by simpa using hlen) (fun z hz => ha z (by simp [hz]))
          (fun z hz => hb z (by simp [hz])) ?_
        intro i hi
        have := hbits (i + 8) (by simp; omega)
        rwa [getBit_cons, getBit_cons] at this
      rw [htail]

/-- C3 (corrected): after any sequence of `addContact` operations on a
fresh non-temporary routing table with K = 8, over genuine 20-byte ids:
every E1 bucket except the tip node's is empty; every element-1 contact
at tree position y agrees with the table id at bit y while every
element-0 contact differs at bit y; and every bucket holds at most
`K - 1 + (number of tree nodes)` contacts.  The claimed cap of K = 8 per
bucket does not hold: a split may funnel all K + 1 contacts into a
single bucket of the new tip node (see the counterexample), and such a
bucket is never shrunk by later insertions. -/
theorem claim_C3_table_invariant (id0 : List Nat) (ops : List (Contact × Nat))
    (hid : id0.length = 20) (hidb : ∀ x ∈ id0, x < 256)
    (hops : ∀ p ∈ ops, p.1.id.length = 20 ∧ ∀ x ∈ p.1.id, x < 256) :
    (∀ j, j + 1 < (ops.foldl (fun t p => addContact t p.1 p.2) (mkTable id0 false 0)).tree.length →
      ((ops.foldl (fun t p => addContact t p.1 p.2) (mkTable id0 false 0)).tree.getD j ([], [])).2 = []) ∧
    (∀ j, ∀ c ∈ ((ops.foldl (fun t p => addContact t p.1 p.2) (mkTable id0 false 0)).tree.getD j ([], [])).2,
      getBit c.id j = getBit id0 j) ∧
    (∀ j, ∀ c ∈ ((ops.foldl (fun t p => addContact t p.1 p.2) (mkTable id0 false 0)).tree.getD j ([], [])).1,
      getBit c.id j ≠ getBit id0 j) ∧
    (∀ j, (((ops.foldl (fun t p => addContact t p.1 p.2) (mkTable id0 false 0)).tree.getD j ([], [])).1.length ≤
        7 + (ops.foldl (fun t p => addContact t p.1 p.2) (mkTable id0 false 0)).tree.length) ∧
      (((ops.foldl (fun t p => addContact t p.1 p.2) (mkTable id0 false 0)).tree.getD j ([], [])).2.length ≤
        7 + (ops.foldl (fun t p => addContact t p.1 p.2) (mkTable id0 false 0)).tree.length)) := by
  set t := ops.foldl (fun t p => addContact t p.1 p.2) (mkTable id0 false 0) with htdef
  obtain ⟨hne, hE1e, hE0, hE1, hsz⟩ := foldAdd_inv ops (mkTable id0 false 0) (TableInv_mkTable id0 false 0)
  obtain ⟨hfid, hftemp, hfmax⟩ := foldAdd_fields ops (mkTable id0 false 0)
  have htid : t.id = id0 := hfid
  have htmax : t.maxContacts = 8 := by rw [hfmax]; rfl
  have hQ : TableAllIds
      (fun i => i.length = 20 ∧ (∀ x ∈ i, x < 256) ∧ i ≠ id0) t := by
    refine foldAdd_allIds _ ops (mkTable id0 false 0) (TableInv_mkTable id0 false 0) ?_ ?_
    · intro j
      constructor
      · intro c hc
        rcases j with _ | j <;> simp [mkTable] at hc
      · intro c hc
        rcases j with _ | j <;> simp [mkTable] at hc
    · intro p hp
      by_cases hpe : p.1.id = id0
      · exact Or.inr ⟨rfl, hpe⟩
      · exact Or.inl ⟨(hops p hp).1, (hops p hp).2, hpe⟩
  refine ⟨hE1e, ?_, ?_, ?_⟩
  · intro j c hc
    have := hE1 j c hc
    rw [htid] at this
    have hb := firstDiffBit_ge c.id id0 j this
    exact hb
  · intro j c hc
    have hfd := hE0 j c hc
    rw [htid] at hfd
    obtain ⟨hlen20, hbytes, hneid⟩ := (hQ j).1 c hc
    have hlt : firstDiffBit c.id id0 < c.id.length * 8 := by
      rcases Nat.lt_or_ge (firstDiffBit c.id id0) (c.id.length * 8) with h | h
      · exact h
      · exfalso
        have hfd160 : firstDiffBit c.id id0 = c.id.length * 8 := by
          have := firstDiffBit_le c.id id0
          omega
        refine hneid (id_eq_of_bits_eq c.id id0 (by rw [hlen20, hid]) hbytes hidb ?_)
        intro i hi
        exact firstDiffBit_ge c.id id0 i (by omega)
    rw [← hfd]
    exact firstDiffBit_ne c.id id0 hlt
  · intro j
    have h1 := hsz j
    rw [← htdef] at h1
    rw [htmax] at h1
    omega

/-- Counterexample to C3 as stated: starting from an all-zero 20-byte
table id, inserting nine distinct contacts whose ids match the table id
at bit 0 and differ at bit 1 triggers one split that funnels all nine
into element 0 of the new tip node — a bucket of nine contacts,
exceeding K = 8. -/
theorem claim_C3_counterexample :
    8 < ((((List.range 9).map
        (fun j => (Contact.mk ((64 + j) :: List.replicate 19 0) [1, 2, 3, 4, 0, 80] 0, 1))).foldl
      (fun t p => addContact t p.1 p.2)
      (mkTable (List.replicate 20 0) false 0)).tree.getD 1 ([], [])).1.length := by
  decide

/-- Witness for C3 at the empty operation sequence. -/
theorem claim_C3_table_invariant_witness :
    (∀ j, j + 1 < (([] : List (Contact × Nat)).foldl (fun t p => addContact t p.1 p.2) (mkTable (List.replicate 20 0) false 0)).tree.length →
      ((([] : List (Contact × Nat)).foldl (fun t p => addContact t p.1 p.2) (mkTable (List.replicate 20 0) false 0)).tree.getD j ([], [])).2 = []) ∧
    (∀ j, ∀ c ∈ ((([] : List (Contact × Nat)).foldl (fun t p => addContact t p.1 p.2) (mkTable (List.replicate 20 0) false 0)).tree.getD j ([], [])).2,
      getBit c.id j = getBit (List.replicate 20 0) j) ∧
    (∀ j, ∀ c ∈ ((([] : List (Contact × Nat)).foldl (fun t p => addContact t p.1 p.2) (mkTable (List.replicate 20 0) false 0)).tree.getD j ([], [])).1,
      getBit c.id j ≠ getBit (List.replicate 20 0) j) ∧
    (∀ j, (((([] : List (Contact × Nat)).foldl (fun t p => addContact t p.1 p.2) (mkTable (List.replicate 20 0) false 0)).tree.getD j ([], [])).1.length ≤
        7 + (([] : List (Contact × Nat)).foldl (fun t p => addContact t p.1 p.2) (mkTable (List.replicate 20 0) false 0)).tree.length) ∧
      (((([] : List (Contact × Nat)).foldl (fun t p => addContact t p.1 p.2) (mkTable (List.replicate 20 0) false 0)).tree.getD j ([], [])).2.length ≤
        7 + (([] : List (Contact × Nat)).foldl (fun t p => addContact t p.1 p.2) (mkTable (List.replicate 20 0) false 0)).tree.length)) :=
  claim_C3_table_invariant (List.replicate 20 0) [] (by decide) (by decide) (by simp)

theorem bytesToNat_foldl (l : List Nat) :
    ∀ a : Nat, l.foldl (fun a b => a * 256 + b) a = a * 256 ^ l.length + bytesToNat l := by
  induction l with
  | nil =>
    intro a
    simp [bytesToNat]
  | cons y ys ih =>
    intro a
    rw [List.foldl_cons, ih (a * 256 + y)]
    have h0 : bytesToNat (y :: ys) = y * 256 ^ ys.length + bytesToNat ys := by
      rw [bytesToNat, List.foldl_cons, ih]
      ring
    rw [h0]
    simp only [List.length_cons, pow_succ]
    ring

theorem bytesToNat_cons (x : Nat) (l : List Nat) :
    bytesToNat (x :: l) = x * 256 ^ l.length + bytesToNat l := by
  rw [bytesToNat, List.foldl_cons, bytesToNat_foldl]
  ring

theorem bytesToNat_lt (l : List Nat) (h : ∀ x ∈ l, x < 256) :
    bytesToNat l < 256 ^ l.length := by
  induction l with
  | nil => simp [bytesToNat]
  | cons x xs ih =>
    rw [bytesToNat_cons]
    have hx := h x (by simp)
    have hxs := ih (fun z hz => h z (by simp [hz]))
    have hp : 0 < (256 : Nat) ^ xs.length := Nat.pos_pow_of_pos xs.length (by omega)
    have h1 : x * 256 ^ xs.length + bytesToNat xs < (x + 1) * 256 ^ xs.length := by nlinarith
    have h2 : (x + 1) * 256 ^ xs.length ≤ 256 * 256 ^ xs.length :=
      Nat.mul_le_mul_right _ (by omega)
    have h3 : (256 : Nat) * 256 ^ xs.length = 256 ^ (x :: xs).length := by
      simp [pow_succ]
      ring
    omega

theorem xor_byte_lt (a b : Nat) (ha : a < 256) (hb : b < 256) : a ^^^ b < 256 := by
  have h : (256 : Nat) = 2 ^ 8 := by norm_num
  rw [h] at ha hb ⊢
  exact Nat.xor_lt_two_pow ha hb

theorem zipWith_xor_bytes (l1 : List Nat) : ∀ l2 : List Nat,
    (∀ x ∈ l1, x < 256) → (∀ x ∈ l2, x < 256) →
    ∀ z ∈ List.zipWith (fun a b => a ^^^ b) l1 l2, z < 256 := by
  induction l1 with
  | nil =>
    intro l2 _ _ z hz
    simp at hz
  | cons x xs ih =>
    intro l2 h1 h2 z hz
    cases l2 with
    | nil => simp at hz
    | cons y ys =>
      rw [List.zipWith_cons_cons] at hz
      rcases List.mem_cons.1 hz with rfl | hz'
      · exact xor_byte_lt x y (h1 x (by simp)) (h2 y (by simp))
      · exact ih ys (fun w hw => h1 w (by simp [hw])) (fun w hw => h2 w (by simp [hw])) z hz'

theorem xorCmp_le_iff (aid : List Nat) : ∀ (tid bid : List Nat),
    aid.length = tid.length → bid.length = tid.length →
    (∀ x ∈ aid, x < 256) → (∀ x ∈ bid, x < 256) → (∀ x ∈ tid, x < 256) →
    (xorCmpBytes aid tid bid ≤ 0 ↔ xorDist tid aid ≤ xorDist tid bid) := by
  induction aid with
  | nil =>
    intro tid bid hal hbl _ _ _
    have h1 : tid = [] := List.length_eq_zero.1 (by simpa using hal.symm)
    subst h1
    have h2 : bid = [] := List.length_eq_zero.1 (by simpa using hbl)
    subst h2
    simp [xorCmpBytes, xorDist]
  | cons a as ih =>
    intro tid bid hal hbl ha hb ht
    cases tid with
    | nil => simp at hal
    | cons t ts =>
      cases bid with
      | nil => simp at hbl
      | cons b bs =>
        have hal' : as.length = ts.length := by simp at hal; omega
        have hbl' : bs.length = ts.length := by simp at hbl; omega
        have hdist1 : xorDist (t :: ts) (a :: as) =
            (a ^^^ t) * 256 ^ (List.zipWith (fun a b => a ^^^ b) as ts).length +
              xorDist ts as := by
          rw [xorDist, xorDist, List.zipWith_cons_cons, bytesToNat_cons]
        have hdist2 : xorDist (t :: ts) (b :: bs) =
            (b ^^^ t) * 256 ^ (List.zipWith (fun a b => a ^^^ b) bs ts).length +
              xorDist ts bs := by
          rw [xorDist, xorDist, List.zipWith_cons_cons, bytesToNat_cons]
        have hzlen : (List.zipWith (fun a b => a ^^^ b) as ts).length =
            (List.zipWith (fun a b => a ^^^ b) bs ts).length := by
          simp only [List.length_zipWith]
          omega
        have ha' : ∀ x ∈ as, x < 256 := fun z hz => ha z (by simp [hz])
        have hb' : ∀ x ∈ bs, x < 256 := fun z hz => hb z (by simp [hz])
        have ht' : ∀ x ∈ ts, x < 256 := fun z hz => ht z (by simp [hz])
        have hbound1 : xorDist ts as < 256 ^ (List.zipWith (fun a b => a ^^^ b) as ts).length :=
          bytesToNat_lt _ (zipWith_xor_bytes as ts ha' ht')
        have hbound2 : xorDist ts bs < 256 ^ (List.zipWith (fun a b => a ^^^ b) bs ts).length :=
          bytesToNat_lt _ (zipWith_xor_bytes bs ts hb' ht')
        rw [xorCmpBytes, hdist1, hdist2, ← hzlen]
        have hB : 0 < (256 : Nat) ^ (List.zipWith (fun a b => a ^^^ b) as ts).length :=
          Nat.pos_pow_of_pos _ (by omega)
        rw [← hzlen] at hbound2
        by_cases heq : a ^^^ t = b ^^^ t
        · rw [if_pos heq, heq, Nat.add_le_add_iff_left]
          exact ih ts bs hal' hbl' ha' hb' ht'
        · rw [if_neg heq]
          constructor
          · intro h
            simp only [Int.ofNat_eq_coe] at h
            have hAC : a ^^^ t < b ^^^ t := by omega
            nlinarith [hbound1, hbound2, hB]
          · intro h
            by_contra hgt
            rw [not_le] at hgt
            simp only [Int.ofNat_eq_coe] at hgt
            have hCA : b ^^^ t < a ^^^ t := by omega
            nlinarith [hbound1, hbound2, hB]

theorem mem_xorInsert (tid : List Nat) (c d : Contact) (l : List Contact)
    (h : d ∈ xorInsert tid c l) : d = c ∨ d ∈ l := by
  induction l with
  | nil => simpa [xorInsert] using h
  | cons e es ih =>
    rw [xorInsert] at h
    split at h
    · rcases List.mem_cons.1 h with rfl | h'
      · exact Or.inl rfl
      · exact Or.inr h'
    · rcases List.mem_cons.1 h with rfl | h'
      · exact Or.inr (by simp)
      · rcases ih h' with h'' | h''
        · exact Or.inl h''
        · exact Or.inr (by simp [h''])

theorem mem_xorSort (tid : List Nat) (l : List Contact) (d : Contact)
    (h : d ∈ xorSort tid l) : d ∈ l := by
  induction l generalizing d with
  | nil => simpa [xorSort] using h
  | cons e es ih =>
    rw [xorSort] at h
    rcases mem_xorInsert tid e d (xorSort tid es) h with rfl | h'
    · simp
    · simp [ih d h']

theorem pairwise_xorInsert (tid : List Nat) (c : Contact) (l : List Contact)
    (htid : ∀ x ∈ tid, x < 256)
    (hc : c.id.length = tid.length ∧ ∀ x ∈ c.id, x < 256)
    (hl : ∀ d ∈ l, d.id.length = tid.length ∧ ∀ x ∈ d.id, x < 256)
    (hp : List.Pairwise (fun a b => xorDist tid a.id ≤ xorDist tid b.id) l) :
    List.Pairwise (fun a b => xorDist tid a.id ≤ xorDist tid b.id) (xorInsert tid c l) := by
  induction l with
  | nil => simp [xorInsert]
  | cons d ds ih =>
    obtain ⟨hp1, hp2⟩ := List.pairwise_cons.1 hp
    have hd := hl d (by simp)
    rw [xorInsert]
    split
    · rename_i hle
      have hcd : xorDist tid c.id ≤ xorDist tid d.id :=
        (xorCmp_le_iff c.id tid d.id hc.1 hd.1 hc.2 hd.2 htid).1 hle
      refine List.pairwise_cons.2 ⟨?_, hp⟩
      intro e he
      rcases List.mem_cons.1 he with rfl | he'
      · exact hcd
      · exact le_trans hcd (hp1 e he')
    · rename_i hnle
      have hdc : xorDist tid d.id ≤ xorDist tid c.id := by
        rcases le_total (xorDist tid d.id) (xorDist tid c.id) with h | h
        · exact h
        · exact absurd ((xorCmp_le_iff c.id tid d.id hc.1 hd.1 hc.2 hd.2 htid).2 h) hnle
      refine List.pairwise_cons.2 ⟨?_, ih (fun e he => hl e (by simp [he])) hp2⟩
      intro e he
      rcases mem_xorInsert tid c e ds he with rfl | h'
      · exact hdc
      · exact hp1 e h'

theorem pairwise_xorSort (tid : List Nat) (l : List Contact)
    (htid : ∀ x ∈ tid, x < 256)
    (hl : ∀ d ∈ l, d.id.length = tid.length ∧ ∀ x ∈ d.id, x < 256) :
    List.Pairwise (fun a b => xorDist tid a.id ≤ xorDist tid b.id) (xorSort tid l) := by
  induction l with
  | nil => simp [xorSort]
  | cons c cs ih =>
    rw [xorSort]
    refine pairwise_xorInsert tid c (xorSort tid cs) htid (hl c (by simp)) ?_
      (ih (fun d hd => hl d (by simp [hd])))
    intro d hd
    exact hl d (by simp [mem_xorSort tid cs d hd])

/-- C4 (corrected): `closestContacts` returns all the tip node's
contacts — possibly more than K = 8 (see the counterexample; the
`find_node` handler separately slices the result to 8) — drawn from the
tip node only, sorted by ascending XOR distance of each contact's id to
the table id (big-endian over the full id). -/
theorem claim_C4_closest (t : Table)
    (htid : ∀ x ∈ t.id, x < 256)
    (htip : ∀ c ∈ (t.tree.getLast?.getD ([], [])).1 ++ (t.tree.getLast?.getD ([], [])).2,
      c.id.length = t.id.length ∧ ∀ x ∈ c.id, x < 256) :
    closestContacts t =
      xorSort t.id ((t.tree.getLast?.getD ([], [])).1 ++ (t.tree.getLast?.getD ([], [])).2) ∧
    (∀ c ∈ closestContacts t,
      c ∈ (t.tree.getLast?.getD ([], [])).1 ++ (t.tree.getLast?.getD ([], [])).2) ∧
    List.Pairwise (fun a b => xorDist t.id a.id ≤ xorDist t.id b.id) (closestContacts t) := by
  refine ⟨rfl, ?_, ?_⟩
  · intro c hc
    exact mem_xorSort _ _ _ hc
  · exact pairwise_xorSort t.id _ htid htip

/-- Counterexample to C4's "at most K = 8 contacts": with eight
bit-0-matching and eight bit-0-differing contacts the root is still the
tip node and `closestContacts` returns all sixteen. -/
theorem claim_C4_counterexample :
    8 < (closestContacts (List.foldl (fun t p => addContact t p.1 p.2)
      (mkTable (List.replicate 20 0) false 0)
      (((List.range 8).map
          (fun j => (Contact.mk ((64 + j) :: List.replicate 19 0) [9, 9, 9, 9, 0, 80] 0, 1)) ++
        (List.range 8).map
          (fun j => (Contact.mk ((128 + j) :: List.replicate 19 0) [9, 9, 9, 9, 0, 80] 0, 1)))
        : List (Contact × Nat)))).length := by
  decide

/-- Witness for C4 at a table with two tip contacts. -/
theorem claim_C4_closest_witness :
    closestContacts (addContact (addContact (mkTable (List.replicate 20 0) false 0)
        ⟨128 :: List.replicate 19 0, [9, 9, 9, 9, 0, 80], 0⟩ 1)
        ⟨64 :: List.replicate 19 0, [9, 9, 9, 9, 0, 80], 0⟩ 2) =
      xorSort (addContact (addContact (mkTable (List.replicate 20 0) false 0)
        ⟨128 :: List.replicate 19 0, [9, 9, 9, 9, 0, 80], 0⟩ 1)
        ⟨64 :: List.replicate 19 0, [9, 9, 9, 9, 0, 80], 0⟩ 2).id
        (((addContact (addContact (mkTable (List.replicate 20 0) false 0)
          ⟨128 :: List.replicate 19 0, [9, 9, 9, 9, 0, 80], 0⟩ 1)
          ⟨64 :: List.replicate 19 0, [9, 9, 9, 9, 0, 80], 0⟩ 2).tree.getLast?.getD ([], [])).1 ++
         ((addContact (addContact (mkTable (List.replicate 20 0) false 0)
          ⟨128 :: List.replicate 19 0, [9, 9, 9, 9, 0, 80], 0⟩ 1)
          ⟨64 :: List.replicate 19 0, [9, 9, 9, 9, 0, 80], 0⟩ 2).tree.getLast?.getD ([], [])).2) ∧
    (∀ c ∈ closestContacts (addContact (addContact (mkTable (List.replicate 20 0) false 0)
        ⟨128 :: List.replicate 19 0, [9, 9, 9, 9, 0, 80], 0⟩ 1)
        ⟨64 :: List.replicate 19 0, [9, 9, 9, 9, 0, 80], 0⟩ 2),
      c ∈ ((addContact (addContact (mkTable (List.replicate 20 0) false 0)
          ⟨128 :: List.replicate 19 0, [9, 9, 9, 9, 0, 80], 0⟩ 1)
          ⟨64 :: List.replicate 19 0, [9, 9, 9, 9, 0, 80], 0⟩ 2).tree.getLast?.getD ([], [])).1 ++
        ((addContact (addContact (mkTable (List.replicate 20 0) false 0)
          ⟨128 :: List.replicate 19 0, [9, 9, 9, 9, 0, 80], 0⟩ 1)
          ⟨64 :: List.replicate 19 0, [9, 9, 9, 9, 0, 80], 0⟩ 2).tree.getLast?.getD ([], [])).2) ∧
    List.Pairwise (fun a b =>
      xorDist (addContact (addContact (mkTable (List.replicate 20 0) false 0)
        ⟨128 :: List.replicate 19 0, [9, 9, 9, 9, 0, 80], 0⟩ 1)
        ⟨64 :: List.replicate 19 0, [9, 9, 9, 9, 0, 80], 0⟩ 2).id a.id ≤
      xorDist (addContact (addContact (mkTable (List.replicate 20 0) false 0)
        ⟨128 :: List.replicate 19 0, [9, 9, 9, 9, 0, 80], 0⟩ 1)
        ⟨64 :: List.replicate 19 0, [9, 9, 9, 9, 0, 80], 0⟩ 2).id b.id)
      (closestContacts (addContact (addContact (mkTable (List.replicate 20 0) false 0)
        ⟨128 :: List.replicate 19 0, [9, 9, 9, 9, 0, 80], 0⟩ 1)
        ⟨64 :: List.replicate 19 0, [9, 9, 9, 9, 0, 80], 0⟩ 2)) :=
  claim_C4_closest _ (by decide) (by decide)

/-! ## C9 — the 4-byte proximity guard of `ut.addContact` -/

theorem utAddContact_inv (t : Table) (id loc : List Nat) (now : Nat)
    (hinv : TableInv t) : TableInv (utAddContact t id loc now) := by
  rw [utAddContact]
  split
  · exact hinv
  · exact addContact_inv t ⟨id, loc, 0⟩ now hinv

theorem utAddContact_fields (t : Table) (id loc : List Nat) (now : Nat) :
    (utAddContact t id loc now).id = t.id ∧
    (utAddContact t id loc now).isTemp = t.isTemp ∧
    (utAddContact t id loc now).maxContacts = t.maxContacts := by
  rw [utAddContact]
  split
  · exact ⟨rfl, rfl, rfl⟩
  · exact addContact_fields t ⟨id, loc, 0⟩ now

theorem utAddContact_allIds (Q : List Nat → Prop) (t : Table) (id loc : List Nat)
    (now : Nat) (hinv : TableInv t) (h : TableAllIds Q t)
    (hq : byteMatch id t.id oqMatch = false → Q id) :
    TableAllIds Q (utAddContact t id loc now) := by
  rw [utAddContact]
  split
  · exact h
  · rename_i hguard
    exact TableAllIds_addContact Q t ⟨id, loc, 0⟩ now hinv h
      (fun _ => hq (by simpa using hguard))

/-- C9: every contact insertion via `ut.addContact` passes the proximity
guard, which discards any contact whose id agrees with the table id on
its first `oq.match = 4` bytes; consequently, after any sequence of such
insertions into a fresh non-temporary table, no stored contact's id
shares a 4-byte prefix with the table id. -/
theorem claim_C9_proximity_guard (id0 : List Nat)
    (ops : List (List Nat × List Nat × Nat)) :
    (∀ (t : Table) (id loc : List Nat) (now : Nat),
      byteMatch id t.id oqMatch = true → utAddContact t id loc now = t) ∧
    (∀ j,
      (∀ c ∈ ((ops.foldl (fun t p => utAddContact t p.1 p.2.1 p.2.2)
          (mkTable id0 false 0)).tree.getD j ([], [])).1,
        byteMatch c.id id0 oqMatch = false) ∧
      (∀ c ∈ ((ops.foldl (fun t p => utAddContact t p.1 p.2.1 p.2.2)
          (mkTable id0 false 0)).tree.getD j ([], [])).2,
        byteMatch c.id id0 oqMatch = false)) := by
  constructor
  · intro t id loc now hg
    rw [utAddContact, if_pos hg]
  · have main : ∀ (ops' : List (List Nat × List Nat × Nat)) (t : Table),
        TableInv t → t.id = id0 →
        TableAllIds (fun i => byteMatch i id0 oqMatch = false) t →
        TableAllIds (fun i => byteMatch i id0 oqMatch = false)
          (ops'.foldl (fun t p => utAddContact t p.1 p.2.1 p.2.2) t) := by
      intro ops'
      induction ops' with
      | nil => exact fun t _ _ h => h
      | cons p ops'' ih =>
        intro t hinv hid h
        rw [List.foldl_cons]
        obtain ⟨f1, f2, f3⟩ := utAddContact_fields t p.1 p.2.1 p.2.2
        refine ih (utAddContact t p.1 p.2.1 p.2.2)
          (utAddContact_inv t p.1 p.2.1 p.2.2 hinv) (by rw [f1, hid]) ?_
        refine utAddContact_allIds _ t p.1 p.2.1 p.2.2 hinv h ?_
        rw [hid]
        exact fun h => h
    have h0 : TableAllIds (fun i => byteMatch i id0 oqMatch = false)
        (mkTable id0 false 0) := by
      intro j
      constructor
      · intro c hc
        rcases j with _ | j <;> simp [mkTable] at hc
      · intro c hc
        rcases j with _ | j <;> simp [mkTable] at hc
    exact main ops (mkTable id0 false 0) (TableInv_mkTable id0 false 0) rfl h0

/-- Witness for C9: the guard drops an exact-prefix contact, and after
inserting one far and one near contact only the far one is stored. -/
theorem claim_C9_proximity_guard_witness :
    utAddContact (mkTable (List.replicate 20 0) false 0) (List.replicate 20 0)
      [9, 9, 9, 9, 0, 80] 5 = mkTable (List.replicate 20 0) false 0 ∧
    (∀ c ∈ (([([0, 0, 0, 0, 7] ++ List.replicate 15 0, [9, 9, 9, 9, 0, 80], (3 : Nat)),
        (128 :: List.replicate 19 0, [9, 9, 9, 9, 0, 80], 4)] :
          List (List Nat × List Nat × Nat)).foldl
        (fun t p => utAddContact t p.1 p.2.1 p.2.2)
        (mkTable (List.replicate 20 0) false 0)).tree.getD 0 ([], []) |>.1,
      byteMatch c.id (List.replicate 20 0) oqMatch = false) :=
  ⟨(claim_C9_proximity_guard (List.replicate 20 0) []).1 _ _ _ 5 (by decide),
   ((claim_C9_proximity_guard (List.replicate 20 0)
      [([0, 0, 0, 0, 7] ++ List.replicate 15 0, [9, 9, 9, 9, 0, 80], 3),
       (128 :: List.replicate 19 0, [9, 9, 9, 9, 0, 80], 4)]).2 0).1⟩

end Mdht
